import Mathlib

/-!
Verification development for the `taskcond` task-runner core.

The repository ships the tests of the core (`tests/taskcond/core/...`) and a
sample `TaskFile.py`, but the core package itself (`taskcond.core.task`,
`taskcond.core.manager`, `taskcond.core.orchestrator`) is not part of the
sources available here.  Following the specification (spec.md sections 3-5),
the data model and the operations are therefore modelled from the spec and
checked against the behaviours the test suite pins down.

Modelling choices (all spelled out in the doc comment of each definition):
file timestamps are natural numbers, the filesystem and the outcomes of shell
commands / user callables are an explicit `World` value, and the concurrent
scheduling loop is embedded as the single-coordinator polling loop the spec
describes, with task bodies executed at submission time (the spec's ordering
and failure-propagation contracts are insensitive to the interleaving of
worker completions, because all run state is owned by the coordinator).
-/

namespace Taskcond

/-- Modelled from the spec: the execution body of a task is a closed tagged
variant - a shell command, a callable (identified here by its name), or
nothing (spec section 3 and design note on the polymorphic execution body). -/
inductive ExecBody where
  | noBody : ExecBody
  | shell (cmd : String) : ExecBody
  | func (fname : String) : ExecBody
deriving DecidableEq, Repr

/-- Modelled from the spec: an immutable task declaration - name, dependency
names, input/output file paths, and one execution body (spec section 3). -/
structure Task where
  name : String
  depends : List String := []
  input_files : List String := []
  output_files : List String := []
  body : ExecBody := ExecBody.noBody
deriving DecidableEq, Repr

/-- Modelled from the spec: the external world a run observes - file
modification times (`none` means the file does not exist), the exit code a
shell command returns, and the error message a user callable raises (`none`
means the callable returns normally). -/
structure World where
  mtime : String → Option Nat
  runShell : String → Nat
  callFun : String → Option String

/-- Largest element of a list of timestamps (`0` for the empty list; only
used on non-empty lists). -/
def natMaxL (l : List Nat) : Nat := l.foldr max 0

/-- Smallest element of a list of timestamps (`0` for the empty list; only
used on non-empty lists). -/
def natMinL : List Nat → Nat
  | [] => 0
  | x :: xs => xs.foldr min x

/-- Newest modification time among the files of `ps` (all assumed present). -/
def newestMTime (w : World) (ps : List String) : Nat :=
  natMaxL (ps.filterMap w.mtime)

/-- Oldest modification time among the files of `ps` (all assumed present). -/
def oldestMTime (w : World) (ps : List String) : Nat :=
  natMinL (ps.filterMap w.mtime)

/-- Modelled from the spec: the staleness decision `Task.should_run()`
(spec section 4.1) - no outputs declared: always run; a declared output or
input missing: run; outputs all present and no inputs: up to date; otherwise
run iff the newest input is strictly newer than the oldest output. -/
def Task.should_run (t : Task) (w : World) : Bool :=
  if t.output_files.isEmpty then true
  else if t.output_files.any (fun p => (w.mtime p).isNone) then true
  else if t.input_files.any (fun p => (w.mtime p).isNone) then true
  else if t.input_files.isEmpty then false
  else decide (newestMTime w t.input_files > oldestMTime w t.output_files)

/-- Modelled from the spec: the error kinds `Task.execute()` surfaces (spec
sections 4.1 and 7): a failing shell command carries the command text and the
exit code, a raising callable carries the callable name and the original
message. -/
inductive ExecError where
  | shellCommandFailed (cmd : String) (code : Nat) : ExecError
  | functionFailed (fname : String) (msg : String) : ExecError
deriving DecidableEq, Repr

/-- Modelled from the spec: `Task.execute()` runs exactly the configured body
(spec section 4.1); with no body it succeeds trivially. -/
def Task.execute (t : Task) (w : World) : Except ExecError Unit :=
  match t.body with
  | ExecBody.noBody => Except.ok ()
  | ExecBody.shell c =>
      if w.runShell c = 0 then Except.ok ()
      else Except.error (ExecError.shellCommandFailed c (w.runShell c))
  | ExecBody.func f =>
      match w.callFun f with
      | Option.none => Except.ok ()
      | Option.some m => Except.error (ExecError.functionFailed f m)

/-- Whether a name is registered in the registry. -/
def registered (reg : List Task) (n : String) : Bool :=
  reg.any (fun t => t.name = n)

/-- Lookup of a registered task by name (first match, names are unique in a
registry built through `register`). -/
def getTask? (reg : List Task) (n : String) : Option Task :=
  reg.find? (fun t => t.name = n)

/-- Dependency list of a registered name (empty for unregistered names). -/
def depsOf (reg : List Task) (n : String) : List String :=
  match getTask? reg n with
  | Option.some t => t.depends
  | Option.none => []

/-- Modelled from the spec: the per-task run states of the orchestrator
(spec section 3). -/
inductive TState where
  | pending : TState
  | running : TState
  | done : TState
  | skipped : TState
  | failed : TState
  | failedProp : TState
deriving DecidableEq, Repr

/-- States counting as satisfied for unblocking dependents (spec 4.3:
`DONE` and `SKIPPED`). -/
def satisfiedSt : TState → Bool
  | TState.done => true
  | TState.skipped => true
  | _ => false

/-- States counting as failed for dependents (spec 4.3: `FAILED` and
`FAILED_PROPAGATED`). -/
def failedSt : TState → Bool
  | TState.failed => true
  | TState.failedProp => true
  | _ => false

/-- Terminal states (spec 4.3: everything except `PENDING`/`RUNNING`). -/
def terminalSt : TState → Bool
  | TState.pending => false
  | TState.running => false
  | _ => true

/-- Observable events of one run: submissions to the worker pool, completions,
skips, failure propagations, the per-failure message naming the failing task
and carrying the error, the deadlock warning, and the final summary line
(`summary true` renders as "All tasks completed successfully" and
`summary false` as "Finished with Failures"). -/
inductive Event where
  | submitted (n : String) : Event
  | finished (n : String) (ok : Bool) : Event
  | skipEv (n : String) : Event
  | propagated (n : String) (failedDep : String) : Event
  | taskFailed (n : String) (err : ExecError) : Event
  | deadlockWarning : Event
  | summary (ok : Bool) : Event
deriving DecidableEq, Repr

/-- Pointwise update of a run-state map. -/
def updSt (st : String → TState) (n : String) (v : TState) : String → TState :=
  fun m => if m = n then v else st m

/-- First dependency currently in a failed terminal state, if any. -/
def firstFailedDep (st : String → TState) (deps : List String) : Option String :=
  deps.find? (fun d => failedSt (st d))

/-- Result of processing one task (or one whole pass): the updated state map,
the emitted events newest first, whether a task was newly submitted or
skipped, and whether any state changed. -/
structure StepOut where
  st : String → TState
  evs : List Event
  subskip : Bool
  changed : Bool

/-- Modelled from the spec: the scheduling decision for one `PENDING` task on
one pass of the loop (spec 4.3.5a-d).  A task with a failed dependency is
propagated; a task whose dependencies are all satisfied and whose declared
input files are all present is submitted (when forced or stale) or skipped
(when up to date); everything else stays `PENDING`.  The model runs the body
at submission time and records the completion right after the submission,
which realises the coordinator-owned state transitions of spec section 5. -/
def processTask (reg : List Task) (w : World) (force : Bool)
    (st : String → TState) (n : String) : StepOut :=
  if st n = TState.pending then
    match getTask? reg n with
    | Option.none => ⟨st, [], false, false⟩
    | Option.some t =>
      match firstFailedDep st t.depends with
      | Option.some d =>
          ⟨updSt st n TState.failedProp, [Event.propagated n d], false, true⟩
      | Option.none =>
        if t.depends.all (fun d => satisfiedSt (st d)) then
          if t.input_files.all (fun p => (w.mtime p).isSome) then
            if force || t.should_run w then
              match t.execute w with
              | Except.ok _ =>
                  ⟨updSt st n TState.done,
                   [Event.finished n true, Event.submitted n], true, true⟩
              | Except.error e =>
                  ⟨updSt st n TState.failed,
                   [Event.taskFailed n e, Event.finished n false,
                    Event.submitted n], true, true⟩
            else ⟨updSt st n TState.skipped, [Event.skipEv n], true, true⟩
          else ⟨st, [], false, false⟩
        else ⟨st, [], false, false⟩
  else ⟨st, [], false, false⟩

/-- One full scheduling pass over the closure task list (spec 4.3.5):
processes every task once, threading the state so that a transition is
visible to the readiness evaluation of the tasks processed after it. -/
def passGo (reg : List Task) (w : World) (force : Bool) :
    List String → (String → TState) → StepOut
  | [], st => ⟨st, [], false, false⟩
  | n :: ns, st =>
    let o := processTask reg w force st n
    let r := passGo reg w force ns o.st
    ⟨r.st, r.evs ++ o.evs, o.subskip || r.subskip, o.changed || r.changed⟩

/-- Whether some closure task is still `PENDING`. -/
def pendingInClosure (cl : List String) (st : String → TState) : Bool :=
  cl.any (fun n => st n = TState.pending)

/-- Whether every closure task reached a terminal state. -/
def allTerminalB (cl : List String) (st : String → TState) : Bool :=
  cl.all (fun n => terminalSt (st n))

/-- Run state carried through the scheduling loop: the state map, the event
trace newest first, and whether the loop reached its stopping condition
(rather than running out of the fuel the embedding supplies). -/
structure RS where
  st : String → TState
  trace : List Event
  ended : Bool

/-- Modelled from the spec: the polling scheduling loop (spec 4.3.5-4.3.6 and
section 5).  Each iteration is one pass; after a pass that neither submitted
nor skipped anything while a task is still `PENDING`, the deadlock warning is
emitted (spec 4.3.5e); the loop stops when every closure task is terminal or
when a pass changes nothing (with a static world no external action can make
a stalled task runnable, so polling further never changes the state). -/
def runLoop (reg : List Task) (w : World) (force : Bool) (cl : List String) :
    Nat → RS → RS
  | 0, rs => rs
  | Nat.succ fuel, rs =>
    if allTerminalB cl rs.st then { rs with ended := true }
    else
      let p := passGo reg w force cl rs.st
      let warn := !p.subskip && pendingInClosure cl p.st
      let tr2 := (if warn then [Event.deadlockWarning] else []) ++ p.evs ++ rs.trace
      if p.changed then runLoop reg w force cl fuel ⟨p.st, tr2, false⟩
      else ⟨p.st, tr2, true⟩

/-- Appends the names of `ds` that are not already present, keeping order and
never duplicating. -/
def addNew (acc : List String) (ds : List String) : List String :=
  ds.foldl (fun a d => if d ∈ a then a else a ++ [d]) acc

/-- One step of the closure computation: adds the registered dependencies of
every name already collected. -/
def closureStep (reg : List Task) (acc : List String) : List String :=
  addNew acc
    ((acc.foldr (fun n l => depsOf reg n ++ l) []).filter (registered reg))

/-- Iterates `closureStep` until it reaches a fixpoint (bounded by the given
fuel, which `closure` sizes so the fixpoint is always reached). -/
def closureIter (reg : List Task) : Nat → List String → List String
  | 0, acc => acc
  | Nat.succ fuel, acc =>
    let acc2 := closureStep reg acc
    if acc2.length = acc.length then acc else closureIter reg fuel acc2

/-- Modelled from the spec: the required closure of a target list - the
targets plus every task transitively reachable through `depends` (spec
4.3.3 and the glossary). -/
def closure (reg : List Task) (targets : List String) : List String :=
  closureIter reg (reg.length + 1) (addNew [] targets)

/-- Modelled from the spec: the validation errors `run_tasks` raises before
any run state exists (spec 4.3.1-4.3.2 and section 7). -/
inductive RunError where
  | noTargets : RunError
  | targetNotFound (n : String) : RunError
deriving DecidableEq, Repr

/-- Result of a completed run: the final state map, the chronological output
trace, and whether the loop reached its stopping condition. -/
structure RunResult where
  st : String → TState
  output : List Event
  ended : Bool

/-- Modelled from the spec: `run_tasks(targets, force, ...)` (spec 4.3) -
validates the target list, computes the closure, starts every closure task
`PENDING`, drives the scheduling loop, and appends the final summary line. -/
def run_tasks (reg : List Task) (w : World) (targets : List String)
    (force : Bool) : Except RunError RunResult :=
  if targets.isEmpty then Except.error RunError.noTargets
  else
    match targets.find? (fun n => !registered reg n) with
    | Option.some n => Except.error (RunError.targetNotFound n)
    | Option.none =>
      let cl := closure reg targets
      let rs := runLoop reg w force cl (cl.length + 1)
          ⟨fun _ => TState.pending, [], false⟩
      let anyFailed := cl.any (fun n => failedSt (rs.st n))
      Except.ok ⟨rs.st, (Event.summary (!anyFailed) :: rs.trace).reverse, rs.ended⟩

/-- Final state of a successful run at one task (a sentinel for errors);
lets concrete runs be evaluated by `decide`. -/
def okSt (x : Except RunError RunResult) (n : String) : TState :=
  match x with
  | Except.ok r => r.st n
  | Except.error _ => TState.running

/-- Output trace of a successful run (empty for errors). -/
def okOut (x : Except RunError RunResult) : List Event :=
  match x with
  | Except.ok r => r.output
  | Except.error _ => []

/-- Whether an event marks the dependency `d` as satisfied: a successful
completion of `d` or a skip of `d`. -/
def satEv (d : String) : Event → Bool
  | Event.finished n ok => decide (n = d) && ok
  | Event.skipEv n => decide (n = d)
  | _ => false

/-- Ordering contract on a reverse-chronological trace: every submission sees
a satisfying event for each of its dependencies in the (older) remainder of
the trace. -/
def OrderedRev (reg : List Task) (tr : List Event) : Prop :=
  ∀ l1 T l2, tr = l1 ++ Event.submitted T :: l2 →
    ∀ d ∈ depsOf reg T, ∃ e ∈ l2, satEv d e = true

/-- Ordering contract on the chronological output: every submission is
preceded by a satisfying event for each of its dependencies. -/
def OrderedOut (reg : List Task) (out : List Event) : Prop :=
  ∀ l1 T l2, out = l1 ++ Event.submitted T :: l2 →
    ∀ d ∈ depsOf reg T, ∃ e ∈ l1, satEv d e = true

theorem orderedRev_nil (reg : List Task) : OrderedRev reg [] := by
  intro l1 T l2 heq
  exact absurd heq (by simp)

theorem orderedRev_cons (reg : List Task) (e : Event) (tr : List Event)
    (h : OrderedRev reg tr)
    (hnew : ∀ T, e = Event.submitted T →
      ∀ d ∈ depsOf reg T, ∃ e2 ∈ tr, satEv d e2 = true) :
    OrderedRev reg (e :: tr) := by
  intro l1 T l2 heq d hd
  cases l1 with
  | nil =>
    simp only [List.nil_append, List.cons.injEq] at heq
    obtain ⟨he, hl2⟩ := heq
    subst hl2
    exact hnew T he d hd
  | cons a l1' =>
    simp only [List.cons_append, List.cons.injEq] at heq
    exact h l1' T l2 heq.2 d hd

theorem orderedRev_cons_other (reg : List Task) (e : Event) (tr : List Event)
    (h : OrderedRev reg tr) (hne : ∀ T, e ≠ Event.submitted T) :
    OrderedRev reg (e :: tr) :=
  orderedRev_cons reg e tr h (fun T heT => absurd heT (hne T))

theorem orderedOut_of_orderedRev (reg : List Task) (l : List Event)
    (h : OrderedRev reg l) : OrderedOut reg l.reverse := by
  intro l1 T l2 heq d hd
  have hl : l = l2.reverse ++ Event.submitted T :: l1.reverse := by
    have := congrArg List.reverse heq
    simpa [List.reverse_append] using this
  obtain ⟨e, he, hse⟩ := h l2.reverse T l1.reverse hl d hd
  exact ⟨e, List.mem_reverse.mp he, hse⟩

theorem updSt_self (st : String → TState) (n : String) (v : TState) :
    updSt st n v n = v := by
  simp [updSt]

theorem updSt_ne (st : String → TState) (n m : String) (v : TState)
    (h : m ≠ n) : updSt st n v m = st m := by
  simp [updSt, h]

theorem satisfied_not_pending {s : TState} (h : satisfiedSt s = true) :
    s ≠ TState.pending := by
  cases s <;> simp_all [satisfiedSt]

theorem failed_not_pending {s : TState} (h : failedSt s = true) :
    s ≠ TState.pending := by
  cases s <;> simp_all [failedSt]

theorem satisfied_not_failed {s : TState} (h : satisfiedSt s = true) :
    failedSt s = false := by
  cases s <;> simp_all [satisfiedSt, failedSt]

theorem satisfied_updSt (st : String → TState) (n d : String) (v : TState)
    (hp : st n = TState.pending) (h : satisfiedSt (st d) = true) :
    satisfiedSt (updSt st n v d) = true := by
  rcases eq_or_ne d n with h1 | h1
  · subst h1; rw [hp] at h; simp [satisfiedSt] at h
  · rwa [updSt_ne st n d v h1]

theorem failed_updSt (st : String → TState) (n d : String) (v : TState)
    (hp : st n = TState.pending) (h : failedSt (st d) = true) :
    failedSt (updSt st n v d) = true := by
  rcases eq_or_ne d n with h1 | h1
  · subst h1; rw [hp] at h; simp [failedSt] at h
  · rwa [updSt_ne st n d v h1]

/-- Invariant tying the run-state map to the trace emitted so far; it is
established at loop entry and preserved by every scheduling action, and every
temporal claim is read off from it at the end of the run. -/
structure RunInv (reg : List Task) (w : World) (force : Bool)
    (cl : List String) (st : String → TState) (tr : List Event) : Prop where
  doneEv : ∀ n, st n = TState.done → Event.finished n true ∈ tr
  doneSub : ∀ n, st n = TState.done → Event.submitted n ∈ tr
  skipEvM : ∀ n, st n = TState.skipped → Event.skipEv n ∈ tr
  failedEv : ∀ n, st n = TState.failed → Event.submitted n ∈ tr ∧
    Event.finished n false ∈ tr ∧ ∃ e, Event.taskFailed n e ∈ tr
  subState : ∀ n, Event.submitted n ∈ tr →
    st n = TState.done ∨ st n = TState.failed
  subDeps : ∀ n, Event.submitted n ∈ tr →
    ∀ d ∈ depsOf reg n, satisfiedSt (st d) = true
  subRun : ∀ n, Event.submitted n ∈ tr → force = true ∨
    (∃ t, getTask? reg n = Option.some t ∧ t.should_run w = true)
  skipSt : ∀ n, Event.skipEv n ∈ tr → st n = TState.skipped
  skipDeps : ∀ n, Event.skipEv n ∈ tr →
    ∀ d ∈ depsOf reg n, satisfiedSt (st d) = true
  skipForce : force = true → ∀ n, Event.skipEv n ∉ tr
  propDep : ∀ n, st n = TState.failedProp →
    ∃ d ∈ depsOf reg n, failedSt (st d) = true
  noRun : ∀ n, st n ≠ TState.running
  inCl : ∀ n, st n ≠ TState.pending → n ∈ cl
  ordered : OrderedRev reg tr

theorem runInv_start (reg : List Task) (w : World) (force : Bool)
    (cl : List String) :
    RunInv reg w force cl (fun _ => TState.pending) [] := by
  refine ⟨?_, ?_, ?_, ?_, ?_, ?_, ?_, ?_, ?_, ?_, ?_, ?_, ?_, ?_⟩ <;>
    simp [orderedRev_nil]

theorem sat_ev_of_state {reg : List Task} {w : World} {force : Bool}
    {cl : List String} {st : String → TState} {tr : List Event}
    (h : RunInv reg w force cl st tr) (d : String)
    (hs : satisfiedSt (st d) = true) : ∃ e ∈ tr, satEv d e = true := by
  rcases hd : st d with h1 | h1 | h1 | h1 | h1 | h1 <;> rw [hd] at hs <;>
    simp [satisfiedSt] at hs
  · exact ⟨Event.finished d true, h.doneEv d hd, by simp [satEv]⟩
  · exact ⟨Event.skipEv d, h.skipEvM d hd, by simp [satEv]⟩

/-- Preservation of the invariant by a failure propagation. -/
theorem runInv_prop (reg : List Task) (w : World) (force : Bool)
    (cl : List String) (st : String → TState) (tr : List Event)
    (n : String) (t : Task) (d : String)
    (hin : n ∈ cl) (hp : st n = TState.pending)
    (hget : getTask? reg n = Option.some t)
    (hffd : firstFailedDep st t.depends = Option.some d)
    (h : RunInv reg w force cl st tr) :
    RunInv reg w force cl (updSt st n TState.failedProp)
      (Event.propagated n d :: tr) := by
  have hdeps : depsOf reg n = t.depends := by simp [depsOf, hget]
  have hffd2 : t.depends.find? (fun x => failedSt (st x)) = Option.some d := hffd
  have hdmem : d ∈ t.depends := List.mem_of_find?_eq_some hffd2
  have hdf : failedSt (st d) = true := by simpa using List.find?_some hffd2
  refine ⟨?_, ?_, ?_, ?_, ?_, ?_, ?_, ?_, ?_, ?_, ?_, ?_, ?_, ?_⟩
  · intro m hm
    rcases eq_or_ne m n with h1 | h1
    · subst h1; rw [updSt_self] at hm; exact absurd hm (by simp)
    · rw [updSt_ne st n m _ h1] at hm
      exact List.mem_cons_of_mem _ (h.doneEv m hm)
  · intro m hm
    rcases eq_or_ne m n with h1 | h1
    · subst h1; rw [updSt_self] at hm; exact absurd hm (by simp)
    · rw [updSt_ne st n m _ h1] at hm
      exact List.mem_cons_of_mem _ (h.doneSub m hm)
  · intro m hm
    rcases eq_or_ne m n with h1 | h1
    · subst h1; rw [updSt_self] at hm; exact absurd hm (by simp)
    · rw [updSt_ne st n m _ h1] at hm
      exact List.mem_cons_of_mem _ (h.skipEvM m hm)
  · intro m hm
    rcases eq_or_ne m n with h1 | h1
    · subst h1; rw [updSt_self] at hm; exact absurd hm (by simp)
    · rw [updSt_ne st n m _ h1] at hm
      obtain ⟨h2, h3, e, h4⟩ := h.failedEv m hm
      exact ⟨List.mem_cons_of_mem _ h2, List.mem_cons_of_mem _ h3, e,
        List.mem_cons_of_mem _ h4⟩
  · intro m hm
    have hm2 : Event.submitted m ∈ tr := by
      rcases List.mem_cons.mp hm with h1 | h1
      · exact absurd h1 (by simp)
      · exact h1
    have h2 := h.subState m hm2
    have hne : m ≠ n := by
      intro he; subst he
      rcases h2 with h3 | h3 <;> rw [hp] at h3 <;> simp_all
    rw [updSt_ne st n m _ hne]
    exact h2
  · intro m hm d2 hd2
    have hm2 : Event.submitted m ∈ tr := by
      rcases List.mem_cons.mp hm with h1 | h1
      · exact absurd h1 (by simp)
      · exact h1
    exact satisfied_updSt st n d2 _ hp (h.subDeps m hm2 d2 hd2)
  · intro m hm
    have hm2 : Event.submitted m ∈ tr := by
      rcases List.mem_cons.mp hm with h1 | h1
      · exact absurd h1 (by simp)
      · exact h1
    exact h.subRun m hm2
  · intro m hm
    have hm2 : Event.skipEv m ∈ tr := by
      rcases List.mem_cons.mp hm with h1 | h1
      · exact absurd h1 (by simp)
      · exact h1
    have h2 := h.skipSt m hm2
    have hne : m ≠ n := by
      intro he; subst he; rw [hp] at h2; simp_all
    rw [updSt_ne st n m _ hne]
    exact h2
  · intro m hm d2 hd2
    have hm2 : Event.skipEv m ∈ tr := by
      rcases List.mem_cons.mp hm with h1 | h1
      · exact absurd h1 (by simp)
      · exact h1
    exact satisfied_updSt st n d2 _ hp (h.skipDeps m hm2 d2 hd2)
  · intro hf m hm
    rcases List.mem_cons.mp hm with h1 | h1
    · exact absurd h1 (by simp)
    · exact h.skipForce hf m h1
  · intro m hm
    rcases eq_or_ne m n with h1 | h1
    · subst h1
      refine ⟨d, ?_, ?_⟩
      · rwa [hdeps]
      · exact failed_updSt st m d _ hp hdf
    · rw [updSt_ne st n m _ h1] at hm
      obtain ⟨d2, hd2, hdf2⟩ := h.propDep m hm
      exact ⟨d2, hd2, failed_updSt st n d2 _ hp hdf2⟩
  · intro m
    rcases eq_or_ne m n with h1 | h1
    · subst h1; rw [updSt_self]; simp
    · rw [updSt_ne st n m _ h1]; exact h.noRun m
  · intro m hm
    rcases eq_or_ne m n with h1 | h1
    · subst h1; exact hin
    · rw [updSt_ne st n m _ h1] at hm
      exact h.inCl m hm
  · exact orderedRev_cons_other reg _ tr h.ordered (by simp)

/-- Preservation of the invariant by a skip of an up-to-date task. -/
theorem runInv_skip (reg : List Task) (w : World) (force : Bool)
    (cl : List String) (st : String → TState) (tr : List Event)
    (n : String) (t : Task)
    (hin : n ∈ cl) (hp : st n = TState.pending)
    (hget : getTask? reg n = Option.some t)
    (hall : t.depends.all (fun d => satisfiedSt (st d)) = true)
    (hforce : (force || t.should_run w) = false)
    (h : RunInv reg w force cl st tr) :
    RunInv reg w force cl (updSt st n TState.skipped)
      (Event.skipEv n :: tr) := by
  have hdeps : depsOf reg n = t.depends := by simp [depsOf, hget]
  have hsat : ∀ d ∈ t.depends, satisfiedSt (st d) = true := by
    intro d hd; exact List.all_eq_true.mp hall d hd
  have hfor : force = false := by
    cases force
    · rfl
    · simp at hforce
  refine ⟨?_, ?_, ?_, ?_, ?_, ?_, ?_, ?_, ?_, ?_, ?_, ?_, ?_, ?_⟩
  · intro m hm
    rcases eq_or_ne m n with h1 | h1
    · subst h1; rw [updSt_self] at hm; exact absurd hm (by simp)
    · rw [updSt_ne st n m _ h1] at hm
      exact List.mem_cons_of_mem _ (h.doneEv m hm)
  · intro m hm
    rcases eq_or_ne m n with h1 | h1
    · subst h1; rw [updSt_self] at hm; exact absurd hm (by simp)
    · rw [updSt_ne st n m _ h1] at hm
      exact List.mem_cons_of_mem _ (h.doneSub m hm)
  · intro m hm
    rcases eq_or_ne m n with h1 | h1
    · subst h1; exact List.mem_cons_self _ _
    · rw [updSt_ne st n m _ h1] at hm
      exact List.mem_cons_of_mem _ (h.skipEvM m hm)
  · intro m hm
    rcases eq_or_ne m n with h1 | h1
    · subst h1; rw [updSt_self] at hm; exact absurd hm (by simp)
    · rw [updSt_ne st n m _ h1] at hm
      obtain ⟨h2, h3, e, h4⟩ := h.failedEv m hm
      exact ⟨List.mem_cons_of_mem _ h2, List.mem_cons_of_mem _ h3, e,
        List.mem_cons_of_mem _ h4⟩
  · intro m hm
    have hm2 : Event.submitted m ∈ tr := by
      rcases List.mem_cons.mp hm with h1 | h1
      · exact absurd h1 (by simp)
      · exact h1
    have h2 := h.subState m hm2
    have hne : m ≠ n := by
      intro he; subst he
      rcases h2 with h3 | h3 <;> rw [hp] at h3 <;> simp_all
    rw [updSt_ne st n m _ hne]
    exact h2
  · intro m hm d2 hd2
    have hm2 : Event.submitted m ∈ tr := by
      rcases List.mem_cons.mp hm with h1 | h1
      · exact absurd h1 (by simp)
      · exact h1
    exact satisfied_updSt st n d2 _ hp (h.subDeps m hm2 d2 hd2)
  · intro m hm
    have hm2 : Event.submitted m ∈ tr := by
      rcases List.mem_cons.mp hm with h1 | h1
      · exact absurd h1 (by simp)
      · exact h1
    exact h.subRun m hm2
  · intro m hm
    rcases List.mem_cons.mp hm with h1 | h1
    · have h2 : m = n := by simpa using h1
      subst h2
      rw [updSt_self]
    · have h2 := h.skipSt m h1
      have hne : m ≠ n := by
        intro he; subst he; rw [hp] at h2; simp_all
      rw [updSt_ne st n m _ hne]
      exact h2
  · intro m hm d2 hd2
    rcases List.mem_cons.mp hm with h1 | h1
    · have h2 : m = n := by simpa using h1
      rw [h2] at hd2
      rw [hdeps] at hd2
      exact satisfied_updSt st n d2 _ hp (hsat d2 hd2)
    · exact satisfied_updSt st n d2 _ hp (h.skipDeps m h1 d2 hd2)
  · intro hf
    rw [hf] at hfor
    exact absurd hfor (by simp)
  · intro m hm
    rcases eq_or_ne m n with h1 | h1
    · subst h1; rw [updSt_self] at hm; exact absurd hm (by simp)
    · rw [updSt_ne st n m _ h1] at hm
      obtain ⟨d2, hd2, hdf2⟩ := h.propDep m hm
      exact ⟨d2, hd2, failed_updSt st n d2 _ hp hdf2⟩
  · intro m
    rcases eq_or_ne m n with h1 | h1
    · subst h1; rw [updSt_self]; simp
    · rw [updSt_ne st n m _ h1]; exact h.noRun m
  · intro m hm
    rcases eq_or_ne m n with h1 | h1
    · subst h1; exact hin
    · rw [updSt_ne st n m _ h1] at hm
      exact h.inCl m hm
  · exact orderedRev_cons_other reg _ tr h.ordered (by simp)

/-- Preservation of the invariant by a successful submission and completion. -/
theorem runInv_sub_ok (reg : List Task) (w : World) (force : Bool)
    (cl : List String) (st : String → TState) (tr : List Event)
    (n : String) (t : Task)
    (hin : n ∈ cl) (hp : st n = TState.pending)
    (hget : getTask? reg n = Option.some t)
    (hall : t.depends.all (fun d => satisfiedSt (st d)) = true)
    (hrun : (force || t.should_run w) = true)
    (h : RunInv reg w force cl st tr) :
    RunInv reg w force cl (updSt st n TState.done)
      (Event.finished n true :: Event.submitted n :: tr) := by
  have hdeps : depsOf reg n = t.depends := by simp [depsOf, hget]
  have hsat : ∀ d ∈ t.depends, satisfiedSt (st d) = true := by
    intro d hd; exact List.all_eq_true.mp hall d hd
  refine ⟨?_, ?_, ?_, ?_, ?_, ?_, ?_, ?_, ?_, ?_, ?_, ?_, ?_, ?_⟩
  · intro m hm
    rcases eq_or_ne m n with h1 | h1
    · subst h1; exact List.mem_cons_self _ _
    · rw [updSt_ne st n m _ h1] at hm
      exact List.mem_cons_of_mem _ (List.mem_cons_of_mem _ (h.doneEv m hm))
  · intro m hm
    rcases eq_or_ne m n with h1 | h1
    · subst h1; exact List.mem_cons_of_mem _ (List.mem_cons_self _ _)
    · rw [updSt_ne st n m _ h1] at hm
      exact List.mem_cons_of_mem _ (List.mem_cons_of_mem _ (h.doneSub m hm))
  · intro m hm
    rcases eq_or_ne m n with h1 | h1
    · subst h1; rw [updSt_self] at hm; exact absurd hm (by simp)
    · rw [updSt_ne st n m _ h1] at hm
      exact List.mem_cons_of_mem _ (List.mem_cons_of_mem _ (h.skipEvM m hm))
  · intro m hm
    rcases eq_or_ne m n with h1 | h1
    · subst h1; rw [updSt_self] at hm; exact absurd hm (by simp)
    · rw [updSt_ne st n m _ h1] at hm
      obtain ⟨h2, h3, e, h4⟩ := h.failedEv m hm
      exact ⟨List.mem_cons_of_mem _ (List.mem_cons_of_mem _ h2),
        List.mem_cons_of_mem _ (List.mem_cons_of_mem _ h3), e,
        List.mem_cons_of_mem _ (List.mem_cons_of_mem _ h4)⟩
  · intro m hm
    simp only [List.mem_cons] at hm
    rcases hm with h1 | h1 | h1
    · exact absurd h1 (by simp)
    · have h2 : m = n := by simpa using h1
      subst h2
      rw [updSt_self]
      exact Or.inl rfl
    · have h2 := h.subState m h1
      have hne : m ≠ n := by
        intro he; subst he
        rcases h2 with h3 | h3 <;> rw [hp] at h3 <;> simp_all
      rw [updSt_ne st n m _ hne]
      exact h2
  · intro m hm d2 hd2
    simp only [List.mem_cons] at hm
    rcases hm with h1 | h1 | h1
    · exact absurd h1 (by simp)
    · have h2 : m = n := by simpa using h1
      rw [h2] at hd2
      rw [hdeps] at hd2
      exact satisfied_updSt st n d2 _ hp (hsat d2 hd2)
    · exact satisfied_updSt st n d2 _ hp (h.subDeps m h1 d2 hd2)
  · intro m hm
    simp only [List.mem_cons] at hm
    rcases hm with h1 | h1 | h1
    · exact absurd h1 (by simp)
    · have h2 : m = n := by simpa using h1
      rw [h2]
      cases hfc : force
      · refine Or.inr ⟨t, hget, ?_⟩
        rw [hfc] at hrun
        simpa using hrun
      · exact Or.inl rfl
    · exact h.subRun m h1
  · intro m hm
    have hm2 : Event.skipEv m ∈ tr := by
      simp only [List.mem_cons] at hm
      rcases hm with h1 | h1 | h1
      · exact absurd h1 (by simp)
      · exact absurd h1 (by simp)
      · exact h1
    have h2 := h.skipSt m hm2
    have hne : m ≠ n := by
      intro he; subst he; rw [hp] at h2; simp_all
    rw [updSt_ne st n m _ hne]
    exact h2
  · intro m hm d2 hd2
    have hm2 : Event.skipEv m ∈ tr := by
      simp only [List.mem_cons] at hm
      rcases hm with h1 | h1 | h1
      · exact absurd h1 (by simp)
      · exact absurd h1 (by simp)
      · exact h1
    exact satisfied_updSt st n d2 _ hp (h.skipDeps m hm2 d2 hd2)
  · intro hf m hm
    simp only [List.mem_cons] at hm
    rcases hm with h1 | h1 | h1
    · exact absurd h1 (by simp)
    · exact absurd h1 (by simp)
    · exact h.skipForce hf m h1
  · intro m hm
    rcases eq_or_ne m n with h1 | h1
    · subst h1; rw [updSt_self] at hm; exact absurd hm (by simp)
    · rw [updSt_ne st n m _ h1] at hm
      obtain ⟨d2, hd2, hdf2⟩ := h.propDep m hm
      exact ⟨d2, hd2, failed_updSt st n d2 _ hp hdf2⟩
  · intro m
    rcases eq_or_ne m n with h1 | h1
    · subst h1; rw [updSt_self]; simp
    · rw [updSt_ne st n m _ h1]; exact h.noRun m
  · intro m hm
    rcases eq_or_ne m n with h1 | h1
    · subst h1; exact hin
    · rw [updSt_ne st n m _ h1] at hm
      exact h.inCl m hm
  · refine orderedRev_cons_other reg _ _ ?_ (by simp)
    refine orderedRev_cons reg _ tr h.ordered ?_
    intro T hT d2 hd2
    have h2 : T = n := by
      have := hT
      simp only [Event.submitted.injEq] at this
      exact this.symm
    subst h2
    rw [hdeps] at hd2
    exact sat_ev_of_state h d2 (hsat d2 hd2)

/-- Preservation of the invariant by a submission whose execution fails. -/
theorem runInv_sub_err (reg : List Task) (w : World) (force : Bool)
    (cl : List String) (st : String → TState) (tr : List Event)
    (n : String) (t : Task) (er : ExecError)
    (hin : n ∈ cl) (hp : st n = TState.pending)
    (hget : getTask? reg n = Option.some t)
    (hall : t.depends.all (fun d => satisfiedSt (st d)) = true)
    (hrun : (force || t.should_run w) = true)
    (h : RunInv reg w force cl st tr) :
    RunInv reg w force cl (updSt st n TState.failed)
      (Event.taskFailed n er :: Event.finished n false ::
        Event.submitted n :: tr) := by
  have hdeps : depsOf reg n = t.depends := by simp [depsOf, hget]
  have hsat : ∀ d ∈ t.depends, satisfiedSt (st d) = true := by
    intro d hd; exact List.all_eq_true.mp hall d hd
  refine ⟨?_, ?_, ?_, ?_, ?_, ?_, ?_, ?_, ?_, ?_, ?_, ?_, ?_, ?_⟩
  · intro m hm
    rcases eq_or_ne m n with h1 | h1
    · subst h1; rw [updSt_self] at hm; exact absurd hm (by simp)
    · rw [updSt_ne st n m _ h1] at hm
      exact List.mem_cons_of_mem _ (List.mem_cons_of_mem _
        (List.mem_cons_of_mem _ (h.doneEv m hm)))
  · intro m hm
    rcases eq_or_ne m n with h1 | h1
    · subst h1; rw [updSt_self] at hm; exact absurd hm (by simp)
    · rw [updSt_ne st n m _ h1] at hm
      exact List.mem_cons_of_mem _ (List.mem_cons_of_mem _
        (List.mem_cons_of_mem _ (h.doneSub m hm)))
  · intro m hm
    rcases eq_or_ne m n with h1 | h1
    · subst h1; rw [updSt_self] at hm; exact absurd hm (by simp)
    · rw [updSt_ne st n m _ h1] at hm
      exact List.mem_cons_of_mem _ (List.mem_cons_of_mem _
        (List.mem_cons_of_mem _ (h.skipEvM m hm)))
  · intro m hm
    rcases eq_or_ne m n with h1 | h1
    · subst h1
      refine ⟨?_, ?_, er, ?_⟩
      · exact List.mem_cons_of_mem _ (List.mem_cons_of_mem _
          (List.mem_cons_self _ _))
      · exact List.mem_cons_of_mem _ (List.mem_cons_self _ _)
      · exact List.mem_cons_self _ _
    · rw [updSt_ne st n m _ h1] at hm
      obtain ⟨h2, h3, e, h4⟩ := h.failedEv m hm
      exact ⟨List.mem_cons_of_mem _ (List.mem_cons_of_mem _
          (List.mem_cons_of_mem _ h2)),
        List.mem_cons_of_mem _ (List.mem_cons_of_mem _
          (List.mem_cons_of_mem _ h3)), e,
        List.mem_cons_of_mem _ (List.mem_cons_of_mem _
          (List.mem_cons_of_mem _ h4))⟩
  · intro m hm
    simp only [List.mem_cons] at hm
    rcases hm with h1 | h1 | h1 | h1
    · exact absurd h1 (by simp)
    · exact absurd h1 (by simp)
    · have h2 : m = n := by simpa using h1
      subst h2
      rw [updSt_self]
      exact Or.inr rfl
    · have h2 := h.subState m h1
      have hne : m ≠ n := by
        intro he; subst he
        rcases h2 with h3 | h3 <;> rw [hp] at h3 <;> simp_all
      rw [updSt_ne st n m _ hne]
      exact h2
  · intro m hm d2 hd2
    simp only [List.mem_cons] at hm
    rcases hm with h1 | h1 | h1 | h1
    · exact absurd h1 (by simp)
    · exact absurd h1 (by simp)
    · have h2 : m = n := by simpa using h1
      rw [h2] at hd2
      rw [hdeps] at hd2
      exact satisfied_updSt st n d2 _ hp (hsat d2 hd2)
    · exact satisfied_updSt st n d2 _ hp (h.subDeps m h1 d2 hd2)
  · intro m hm
    simp only [List.mem_cons] at hm
    rcases hm with h1 | h1 | h1 | h1
    · exact absurd h1 (by simp)
    · exact absurd h1 (by simp)
    · have h2 : m = n := by simpa using h1
      rw [h2]
      cases hfc : force
      · refine Or.inr ⟨t, hget, ?_⟩
        rw [hfc] at hrun
        simpa using hrun
      · exact Or.inl rfl
    · exact h.subRun m h1
  · intro m hm
    have hm2 : Event.skipEv m ∈ tr := by
      simp only [List.mem_cons] at hm
      rcases hm with h1 | h1 | h1 | h1
      · exact absurd h1 (by simp)
      · exact absurd h1 (by simp)
      · exact absurd h1 (by simp)
      · exact h1
    have h2 := h.skipSt m hm2
    have hne : m ≠ n := by
      intro he; subst he; rw [hp] at h2; simp_all
    rw [updSt_ne st n m _ hne]
    exact h2
  · intro m hm d2 hd2
    have hm2 : Event.skipEv m ∈ tr := by
      simp only [List.mem_cons] at hm
      rcases hm with h1 | h1 | h1 | h1
      · exact absurd h1 (by simp)
      · exact absurd h1 (by simp)
      · exact absurd h1 (by simp)
      · exact h1
    exact satisfied_updSt st n d2 _ hp (h.skipDeps m hm2 d2 hd2)
  · intro hf m hm
    simp only [List.mem_cons] at hm
    rcases hm with h1 | h1 | h1 | h1
    · exact absurd h1 (by simp)
    · exact absurd h1 (by simp)
    · exact absurd h1 (by simp)
    · exact h.skipForce hf m h1
  · intro m hm
    rcases eq_or_ne m n with h1 | h1
    · subst h1; rw [updSt_self] at hm; exact absurd hm (by simp)
    · rw [updSt_ne st n m _ h1] at hm
      obtain ⟨d2, hd2, hdf2⟩ := h.propDep m hm
      exact ⟨d2, hd2, failed_updSt st n d2 _ hp hdf2⟩
  · intro m
    rcases eq_or_ne m n with h1 | h1
    · subst h1; rw [updSt_self]; simp
    · rw [updSt_ne st n m _ h1]; exact h.noRun m
  · intro m hm
    rcases eq_or_ne m n with h1 | h1
    · subst h1; exact hin
    · rw [updSt_ne st n m _ h1] at hm
      exact h.inCl m hm
  · refine orderedRev_cons_other reg _ _ ?_ (by simp)
    refine orderedRev_cons_other reg _ _ ?_ (by simp)
    refine orderedRev_cons reg _ tr h.ordered ?_
    intro T hT d2 hd2
    have h2 : T = n := by
      have := hT
      simp only [Event.submitted.injEq] at this
      exact this.symm
    subst h2
    rw [hdeps] at hd2
    exact sat_ev_of_state h d2 (hsat d2 hd2)

/-- One scheduling step preserves the invariant. -/
theorem processTask_inv (reg : List Task) (w : World) (force : Bool)
    (cl : List String) (st : String → TState) (tr : List Event) (n : String)
    (hin : n ∈ cl) (h : RunInv reg w force cl st tr) :
    RunInv reg w force cl (processTask reg w force st n).st
      ((processTask reg w force st n).evs ++ tr) := by
  unfold processTask
  split
  · rename_i hp
    split
    · simpa using h
    · rename_i t hget
      split
      · rename_i d hffd
        simpa using runInv_prop reg w force cl st tr n t d hin hp hget hffd h
      · rename_i hffd
        split
        · rename_i hall
          split
          · rename_i hins
            split
            · rename_i hrun
              split
              · rename_i u hex
                simpa using runInv_sub_ok reg w force cl st tr n t hin hp
                  hget hall hrun h
              · rename_i er hex
                simpa using runInv_sub_err reg w force cl st tr n t er hin hp
                  hget hall hrun h
            · rename_i hrun
              have hforce : (force || t.should_run w) = false := by
                simpa using hrun
              simpa using runInv_skip reg w force cl st tr n t hin hp hget
                hall hforce h
          · simpa using h
        · simpa using h
  · simpa using h

/-- Shape of one scheduling step: either nothing happens, or the processed
task moves from `PENDING` to a terminal state. -/
theorem processTask_cases (reg : List Task) (w : World) (force : Bool)
    (st : String → TState) (n : String) :
    processTask reg w force st n = ⟨st, [], false, false⟩ ∨
    (st n = TState.pending ∧ (processTask reg w force st n).changed = true ∧
      ∃ v, terminalSt v = true ∧
        (processTask reg w force st n).st = updSt st n v) := by
  unfold processTask
  split
  · rename_i hp
    split
    · exact Or.inl rfl
    · rename_i t hget
      split
      · exact Or.inr ⟨hp, rfl, TState.failedProp, rfl, rfl⟩
      · split
        · split
          · split
            · split
              · exact Or.inr ⟨hp, rfl, TState.done, rfl, rfl⟩
              · exact Or.inr ⟨hp, rfl, TState.failed, rfl, rfl⟩
            · exact Or.inr ⟨hp, rfl, TState.skipped, rfl, rfl⟩
          · exact Or.inl rfl
        · exact Or.inl rfl
  · exact Or.inl rfl

theorem processTask_nochange (reg : List Task) (w : World) (force : Bool)
    (st : String → TState) (n : String)
    (hc : (processTask reg w force st n).changed = false) :
    processTask reg w force st n = ⟨st, [], false, false⟩ := by
  rcases processTask_cases reg w force st n with h | ⟨_, h2, _⟩
  · exact h
  · rw [hc] at h2; exact absurd h2 (by simp)

theorem processTask_frame (reg : List Task) (w : World) (force : Bool)
    (st : String → TState) (n m : String) (hm : st m ≠ TState.pending) :
    (processTask reg w force st n).st m = st m := by
  rcases processTask_cases reg w force st n with h | ⟨hp, _, v, _, hst⟩
  · rw [h]
  · rw [hst]
    have hne : m ≠ n := by
      intro he; subst he; exact hm hp
    exact updSt_ne st n m v hne

theorem processTask_pending_mono (reg : List Task) (w : World) (force : Bool)
    (st : String → TState) (n m : String)
    (hm : (processTask reg w force st n).st m = TState.pending) :
    st m = TState.pending := by
  rcases processTask_cases reg w force st n with h | ⟨hp, _, v, hv, hst⟩
  · rw [h] at hm; exact hm
  · rw [hst] at hm
    rcases eq_or_ne m n with h1 | h1
    · subst h1
      rw [updSt_self] at hm
      rw [hm] at hv
      simp [terminalSt] at hv
    · rwa [updSt_ne st n m v h1] at hm

/-- A whole pass preserves the invariant. -/
theorem passGo_inv (reg : List Task) (w : World) (force : Bool)
    (cl : List String) :
    ∀ (ns : List String) (st : String → TState) (tr : List Event),
      (∀ x ∈ ns, x ∈ cl) → RunInv reg w force cl st tr →
      RunInv reg w force cl (passGo reg w force ns st).st
        ((passGo reg w force ns st).evs ++ tr)
  | [], st, tr, _, h => by simpa [passGo] using h
  | n :: ns, st, tr, hsub, h => by
    have h1 := processTask_inv reg w force cl st tr n (hsub n (by simp)) h
    have h2 := passGo_inv reg w force cl ns (processTask reg w force st n).st
      ((processTask reg w force st n).evs ++ tr)
      (fun x hx => hsub x (List.mem_cons_of_mem _ hx)) h1
    simpa [passGo, List.append_assoc] using h2

/-- A pass that reports no change did nothing at all. -/
theorem passGo_nochange (reg : List Task) (w : World) (force : Bool) :
    ∀ (ns : List String) (st : String → TState),
      (passGo reg w force ns st).changed = false →
      passGo reg w force ns st = ⟨st, [], false, false⟩ ∧
        ∀ x ∈ ns, (processTask reg w force st x).changed = false
  | [], st, _ => ⟨rfl, fun x hx => absurd hx (by simp)⟩
  | n :: ns, st, hc => by
    have hco : (processTask reg w force st n).changed = false ∧
        (passGo reg w force ns (processTask reg w force st n).st).changed
          = false := by
      simpa [passGo] using hc
    have hno := processTask_nochange reg w force st n hco.1
    have hst : (processTask reg w force st n).st = st := by rw [hno]
    have hrec := passGo_nochange reg w force ns (processTask reg w force st n).st
      hco.2
    have hrec1 := hrec.1
    rw [hst] at hrec1
    constructor
    · simp [passGo, hno, hrec1]
    · intro x hx
      rcases List.mem_cons.mp hx with h1 | h1
      · subst h1; exact hco.1
      · have := hrec.2 x h1
        rwa [hst] at this

/-- A pass never touches a task that is already out of `PENDING`. -/
theorem passGo_frame (reg : List Task) (w : World) (force : Bool) :
    ∀ (ns : List String) (st : String → TState) (m : String),
      st m ≠ TState.pending → (passGo reg w force ns st).st m = st m
  | [], _, _, _ => rfl
  | n :: ns, st, m, hm => by
    have h1 := processTask_frame reg w force st n m hm
    have h2 := passGo_frame reg w force ns (processTask reg w force st n).st m
      (by rw [h1]; exact hm)
    simp only [passGo]
    rw [h2, h1]

/-- A pass never moves a task back to `PENDING`. -/
theorem passGo_pending_mono (reg : List Task) (w : World) (force : Bool) :
    ∀ (ns : List String) (st : String → TState) (m : String),
      (passGo reg w force ns st).st m = TState.pending →
      st m = TState.pending
  | [], _, _, hm => hm
  | n :: ns, st, m, hm => by
    have h2 := passGo_pending_mono reg w force ns
      (processTask reg w force st n).st m (by simpa [passGo] using hm)
    exact processTask_pending_mono reg w force st n m h2

/-- Number of closure tasks still `PENDING`. -/
def countPending (cl : List String) (st : String → TState) : Nat :=
  cl.countP (fun n => decide (st n = TState.pending))

theorem countPending_mono (cl : List String) (st1 st2 : String → TState)
    (h : ∀ m, st2 m = TState.pending → st1 m = TState.pending) :
    countPending cl st2 ≤ countPending cl st1 := by
  unfold countPending
  induction cl with
  | nil => simp
  | cons a l ih =>
    simp only [List.countP_cons]
    have hc : (if decide (st2 a = TState.pending) = true then 1 else 0) ≤
        (if decide (st1 a = TState.pending) = true then 1 else 0) := by
      by_cases h2 : st2 a = TState.pending
      · simp [h2, h a h2]
      · simp [h2]
    omega

theorem countPending_lt (st1 st2 : String → TState) (n : String)
    (h1 : st1 n = TState.pending) (h2 : st2 n ≠ TState.pending)
    (h : ∀ m, st2 m = TState.pending → st1 m = TState.pending) :
    ∀ cl : List String, n ∈ cl →
      countPending cl st2 < countPending cl st1
  | [], hn => absurd hn (by simp)
  | a :: l, hn => by
    have hmono := countPending_mono l st1 st2 h
    unfold countPending at hmono ⊢
    simp only [List.countP_cons]
    rcases List.mem_cons.mp hn with ha | ha
    · subst ha
      have e1 : decide (st1 n = TState.pending) = true := by simp [h1]
      have e2 : decide (st2 n = TState.pending) = false := by simp [h2]
      rw [e1, e2]
      simp only [if_true, Bool.false_eq_true, if_false]
      omega
    · have hlt := countPending_lt st1 st2 n h1 h2 h l ha
      unfold countPending at hlt
      have hc : (if decide (st2 a = TState.pending) = true then 1 else 0) ≤
          (if decide (st1 a = TState.pending) = true then 1 else 0) := by
        by_cases hc2 : st2 a = TState.pending
        · simp [hc2, h a hc2]
        · simp [hc2]
      omega

theorem processTask_count_le (reg : List Task) (w : World) (force : Bool)
    (cl : List String) (st : String → TState) (n : String) :
    countPending cl (processTask reg w force st n).st ≤ countPending cl st :=
  countPending_mono cl st (processTask reg w force st n).st
    (fun m => processTask_pending_mono reg w force st n m)

theorem passGo_count_le (reg : List Task) (w : World) (force : Bool)
    (cl : List String) :
    ∀ (ns : List String) (st : String → TState),
      countPending cl (passGo reg w force ns st).st ≤ countPending cl st
  | [], _ => Nat.le_refl _
  | n :: ns, st => by
    have h1 := processTask_count_le reg w force cl st n
    have h2 := passGo_count_le reg w force cl ns (processTask reg w force st n).st
    simp only [passGo]
    exact Nat.le_trans h2 h1

/-- A pass that changed something strictly decreases the number of pending
closure tasks. -/
theorem passGo_count_lt (reg : List Task) (w : World) (force : Bool)
    (cl : List String) :
    ∀ (ns : List String) (st : String → TState),
      (∀ x ∈ ns, x ∈ cl) → (passGo reg w force ns st).changed = true →
      countPending cl (passGo reg w force ns st).st < countPending cl st
  | [], st, _, hch => by simp [passGo] at hch
  | n :: ns, st, hsub, hch => by
    have hch2 : (processTask reg w force st n).changed = true ∨
        (passGo reg w force ns (processTask reg w force st n).st).changed
          = true := by
      have : ((processTask reg w force st n).changed ||
          (passGo reg w force ns (processTask reg w force st n).st).changed)
            = true := by simpa [passGo] using hch
      exact Bool.or_eq_true_iff.mp this
    have hres : (passGo reg w force (n :: ns) st).st =
        (passGo reg w force ns (processTask reg w force st n).st).st := by
      simp [passGo]
    rcases hch2 with hc | hc
    · rcases processTask_cases reg w force st n with hno | ⟨hp, _, v, hv, hst⟩
      · rw [hno] at hc; simp at hc
      · have hlt : countPending cl (processTask reg w force st n).st <
            countPending cl st := by
          refine countPending_lt st (processTask reg w force st n).st n
            hp ?_ ?_ cl (hsub n (by simp))
          · rw [hst, updSt_self]
            intro he
            rw [he] at hv
            simp [terminalSt] at hv
          · intro m; exact processTask_pending_mono reg w force st n m
        have hle := passGo_count_le reg w force cl ns
          (processTask reg w force st n).st
        rw [hres]
        exact Nat.lt_of_le_of_lt hle hlt
    · have hlt := passGo_count_lt reg w force cl ns
        (processTask reg w force st n).st
        (fun x hx => hsub x (List.mem_cons_of_mem _ hx)) hc
      have hle := processTask_count_le reg w force cl st n
      rw [hres]
      exact Nat.lt_of_lt_of_le hlt hle

/-- Adding an event that is neither a submission nor a skip preserves the
invariant without a state change. -/
theorem runInv_other_event (reg : List Task) (w : World) (force : Bool)
    (cl : List String) (st : String → TState) (tr : List Event) (e : Event)
    (h : RunInv reg w force cl st tr)
    (hs : ∀ T, e ≠ Event.submitted T) (hk : ∀ T, e ≠ Event.skipEv T) :
    RunInv reg w force cl st (e :: tr) := by
  refine ⟨?_, ?_, ?_, ?_, ?_, ?_, ?_, ?_, ?_, ?_, h.propDep, h.noRun, h.inCl, ?_⟩
  · exact fun n hn => List.mem_cons_of_mem _ (h.doneEv n hn)
  · exact fun n hn => List.mem_cons_of_mem _ (h.doneSub n hn)
  · exact fun n hn => List.mem_cons_of_mem _ (h.skipEvM n hn)
  · intro n hn
    obtain ⟨h1, h2, e2, h3⟩ := h.failedEv n hn
    exact ⟨List.mem_cons_of_mem _ h1, List.mem_cons_of_mem _ h2, e2,
      List.mem_cons_of_mem _ h3⟩
  · intro n hn
    rcases List.mem_cons.mp hn with h1 | h1
    · exact absurd h1.symm (hs n)
    · exact h.subState n h1
  · intro n hn
    rcases List.mem_cons.mp hn with h1 | h1
    · exact absurd h1.symm (hs n)
    · exact h.subDeps n h1
  · intro n hn
    rcases List.mem_cons.mp hn with h1 | h1
    · exact absurd h1.symm (hs n)
    · exact h.subRun n h1
  · intro n hn
    rcases List.mem_cons.mp hn with h1 | h1
    · exact absurd h1.symm (hk n)
    · exact h.skipSt n h1
  · intro n hn
    rcases List.mem_cons.mp hn with h1 | h1
    · exact absurd h1.symm (hk n)
    · exact h.skipDeps n h1
  · intro hf n hn
    rcases List.mem_cons.mp hn with h1 | h1
    · exact absurd h1.symm (hk n)
    · exact h.skipForce hf n h1
  · exact orderedRev_cons_other reg e tr h.ordered
      (fun T hT => absurd hT (hs T))

/-- Without `RUNNING` states, a non-terminal closure contains a pending
task. -/
theorem pending_of_not_terminal (cl : List String) (st : String → TState)
    (hnr : ∀ n, st n ≠ TState.running)
    (h : ¬ (allTerminalB cl st = true)) : pendingInClosure cl st = true := by
  unfold allTerminalB at h
  unfold pendingInClosure
  rw [List.all_eq_true] at h
  push_neg at h
  obtain ⟨x, hx, hterm⟩ := h
  rw [List.any_eq_true]
  refine ⟨x, hx, ?_⟩
  rcases hs : st x with h1 | h1 | h1 | h1 | h1 | h1
  · simp
  · exact absurd hs (hnr x)
  all_goals (rw [hs] at hterm; simp [terminalSt] at hterm)

/-- Behaviour of the scheduling loop when started with enough fuel: it always
reaches its stopping condition, preserves the invariant, only grows the
trace, and ends either with every closure task terminal or stalled with the
deadlock warning emitted. -/
theorem runLoop_master (reg : List Task) (w : World) (force : Bool)
    (cl : List String) :
    ∀ (fuel : Nat) (st : String → TState) (tr : List Event),
      countPending cl st < fuel → RunInv reg w force cl st tr →
      (runLoop reg w force cl fuel ⟨st, tr, false⟩).ended = true ∧
      RunInv reg w force cl (runLoop reg w force cl fuel ⟨st, tr, false⟩).st
        (runLoop reg w force cl fuel ⟨st, tr, false⟩).trace ∧
      (∀ e ∈ tr, e ∈ (runLoop reg w force cl fuel ⟨st, tr, false⟩).trace) ∧
      (allTerminalB cl (runLoop reg w force cl fuel ⟨st, tr, false⟩).st = true ∨
        ((passGo reg w force cl
            (runLoop reg w force cl fuel ⟨st, tr, false⟩).st).changed = false ∧
          pendingInClosure cl
            (runLoop reg w force cl fuel ⟨st, tr, false⟩).st = true ∧
          Event.deadlockWarning ∈
            (runLoop reg w force cl fuel ⟨st, tr, false⟩).trace))
  | 0, st, tr, hcount, _ => absurd hcount (by simp)
  | Nat.succ fuel, st, tr, hcount, hinv => by
    by_cases hterm : allTerminalB cl st = true
    · have hr : runLoop reg w force cl (Nat.succ fuel) ⟨st, tr, false⟩ =
          ⟨st, tr, true⟩ := by
        simp [runLoop, hterm]
      rw [hr]
      exact ⟨rfl, hinv, fun e he => he, Or.inl hterm⟩
    · by_cases hch : (passGo reg w force cl st).changed = true
      · have hinv2 := passGo_inv reg w force cl cl st tr (fun x hx => hx) hinv
        have hinv3 : RunInv reg w force cl (passGo reg w force cl st).st
            ((if (!(passGo reg w force cl st).subskip &&
                pendingInClosure cl (passGo reg w force cl st).st) = true then
              [Event.deadlockWarning] else []) ++
              (passGo reg w force cl st).evs ++ tr) := by
          by_cases hwarn : (!(passGo reg w force cl st).subskip &&
              pendingInClosure cl (passGo reg w force cl st).st) = true
          · rw [if_pos hwarn]
            exact runInv_other_event reg w force cl _ _ _ hinv2
              (by intro T h; exact absurd h (by simp))
              (by intro T h; exact absurd h (by simp))
          · rw [if_neg hwarn]
            simpa using hinv2
        have hcount2 : countPending cl (passGo reg w force cl st).st < fuel := by
          have h1 := passGo_count_lt reg w force cl cl st (fun x hx => hx) hch
          omega
        have hr : runLoop reg w force cl (Nat.succ fuel) ⟨st, tr, false⟩ =
            runLoop reg w force cl fuel
              ⟨(passGo reg w force cl st).st,
                (if (!(passGo reg w force cl st).subskip &&
                    pendingInClosure cl (passGo reg w force cl st).st) = true
                  then [Event.deadlockWarning] else []) ++
                  (passGo reg w force cl st).evs ++ tr, false⟩ := by
          simp only [runLoop]
          rw [if_neg hterm, if_pos hch]
        have ih := runLoop_master reg w force cl fuel
          (passGo reg w force cl st).st
          ((if (!(passGo reg w force cl st).subskip &&
              pendingInClosure cl (passGo reg w force cl st).st) = true then
            [Event.deadlockWarning] else []) ++
            (passGo reg w force cl st).evs ++ tr) hcount2 hinv3
        rw [hr]
        refine ⟨ih.1, ih.2.1, ?_, ih.2.2.2⟩
        intro e he
        exact ih.2.2.1 e (by simp [he])
      · have hnc := passGo_nochange reg w force cl st (by simpa using hch)
        have hpst : (passGo reg w force cl st).st = st := by rw [hnc.1]
        have hpsk : (passGo reg w force cl st).subskip = false := by rw [hnc.1]
        have hpev : (passGo reg w force cl st).evs = [] := by rw [hnc.1]
        have hpend : pendingInClosure cl st = true :=
          pending_of_not_terminal cl st hinv.noRun hterm
        have hwarn : (!(passGo reg w force cl st).subskip &&
            pendingInClosure cl (passGo reg w force cl st).st) = true := by
          rw [hpsk, hpst, hpend]
          rfl
        have hr : runLoop reg w force cl (Nat.succ fuel) ⟨st, tr, false⟩ =
            ⟨st, Event.deadlockWarning :: tr, true⟩ := by
          simp only [runLoop]
          rw [if_neg hterm]
          simp only [hwarn]
          rw [if_neg (by simpa using hch)]
          rw [hpst, hpev]
          simp
        rw [hr]
        refine ⟨rfl, ?_, ?_, Or.inr ⟨?_, hpend, ?_⟩⟩
        · exact runInv_other_event reg w force cl st tr Event.deadlockWarning
            hinv (by intro T h; exact absurd h (by simp))
            (by intro T h; exact absurd h (by simp))
        · exact fun e he => List.mem_cons_of_mem _ he
        · show (passGo reg w force cl st).changed = false
          simpa using hch
        · exact List.mem_cons_self _ _

/-- Unfolding of a successful `run_tasks` call. -/
theorem run_ok_spec (reg : List Task) (w : World) (targets : List String)
    (force : Bool) (r : RunResult)
    (h : run_tasks reg w targets force = Except.ok r) :
    targets.isEmpty = false ∧ (∀ z ∈ targets, registered reg z = true) ∧
    r.st = (runLoop reg w force (closure reg targets)
        ((closure reg targets).length + 1)
        ⟨fun _ => TState.pending, [], false⟩).st ∧
    r.ended = (runLoop reg w force (closure reg targets)
        ((closure reg targets).length + 1)
        ⟨fun _ => TState.pending, [], false⟩).ended ∧
    r.output = (Event.summary (!((closure reg targets).any
        (fun n => failedSt ((runLoop reg w force (closure reg targets)
          ((closure reg targets).length + 1)
          ⟨fun _ => TState.pending, [], false⟩).st n)))) ::
      (runLoop reg w force (closure reg targets)
        ((closure reg targets).length + 1)
        ⟨fun _ => TState.pending, [], false⟩).trace).reverse := by
  unfold run_tasks at h
  by_cases he : targets.isEmpty = true
  · rw [if_pos he] at h
    exact absurd h (by simp)
  · rw [if_neg he] at h
    cases hf : targets.find? (fun n => !registered reg n) with
    | some z =>
      rw [hf] at h
      exact absurd h (by simp)
    | none =>
      rw [hf] at h
      simp only [Except.ok.injEq] at h
      refine ⟨by simpa using he, ?_, ?_, ?_, ?_⟩
      · intro z hz
        have := List.find?_eq_none.mp hf z hz
        simpa using this
      · rw [← h]
      · rw [← h]
      · rw [← h]

theorem countPending_start (cl : List String) :
    countPending cl (fun _ => TState.pending) = cl.length := by
  unfold countPending
  simp

/-- Everything a claim needs about a successful run: the shape of the output,
the invariant at the final state, proper loop exit, and the exit condition. -/
theorem run_ok_facts (reg : List Task) (w : World) (targets : List String)
    (force : Bool) (r : RunResult)
    (h : run_tasks reg w targets force = Except.ok r) :
    ∃ tr : List Event,
      r.output = (Event.summary (!((closure reg targets).any
          (fun n => failedSt (r.st n)))) :: tr).reverse ∧
      RunInv reg w force (closure reg targets) r.st tr ∧
      r.ended = true ∧
      (allTerminalB (closure reg targets) r.st = true ∨
        ((passGo reg w force (closure reg targets) r.st).changed = false ∧
          pendingInClosure (closure reg targets) r.st = true ∧
          Event.deadlockWarning ∈ tr)) ∧
      (∀ z ∈ targets, registered reg z = true) ∧
      targets.isEmpty = false := by
  obtain ⟨he, hreg, hst, hend, hout⟩ := run_ok_spec reg w targets force r h
  have hm := runLoop_master reg w force (closure reg targets)
    ((closure reg targets).length + 1) (fun _ => TState.pending) []
    (by rw [countPending_start]; omega)
    (runInv_start reg w force (closure reg targets))
  refine ⟨(runLoop reg w force (closure reg targets)
      ((closure reg targets).length + 1)
      ⟨fun _ => TState.pending, [], false⟩).trace, ?_, ?_, ?_, ?_, hreg, he⟩
  · rw [hout, hst]
  · rw [hst]; exact hm.2.1
  · rw [hend]; exact hm.1
  · rw [hst]; exact hm.2.2.2

theorem getTask?_some_of_registered (reg : List Task) (n : String)
    (hr : registered reg n = true) :
    ∃ t, getTask? reg n = Option.some t := by
  unfold registered at hr
  rw [List.any_eq_true] at hr
  obtain ⟨t, ht, he⟩ := hr
  have : (getTask? reg n).isSome = true := by
    unfold getTask?
    rw [List.find?_isSome]
    exact ⟨t, ht, he⟩
  exact Option.isSome_iff_exists.mp this

theorem getTask?_mem (reg : List Task) (n : String) (t : Task)
    (h : getTask? reg n = Option.some t) : t ∈ reg ∧ t.name = n :=
  ⟨List.mem_of_find?_eq_some h, by simpa using List.find?_some h⟩

theorem registered_of_getTask? (reg : List Task) (n : String) (t : Task)
    (h : getTask? reg n = Option.some t) : registered reg n = true := by
  obtain ⟨ht, he⟩ := getTask?_mem reg n t h
  unfold registered
  rw [List.any_eq_true]
  exact ⟨t, ht, by simp [he]⟩

theorem mem_addNew_iff : ∀ (ds acc : List String) (x : String),
    x ∈ addNew acc ds ↔ (x ∈ acc ∨ x ∈ ds)
  | [], acc, x => by simp [addNew]
  | d :: ds, acc, x => by
    unfold addNew
    simp only [List.foldl_cons]
    have ih := mem_addNew_iff ds (if d ∈ acc then acc else acc ++ [d]) x
    unfold addNew at ih
    rw [ih]
    by_cases hd : d ∈ acc
    · simp only [if_pos hd]
      constructor
      · rintro (h1 | h1)
        · exact Or.inl h1
        · exact Or.inr (List.mem_cons_of_mem _ h1)
      · rintro (h1 | h1)
        · exact Or.inl h1
        · rcases List.mem_cons.mp h1 with h2 | h2
          · subst h2; exact Or.inl hd
          · exact Or.inr h2
    · simp only [if_neg hd]
      constructor
      · rintro (h1 | h1)
        · rcases List.mem_append.mp h1 with h2 | h2
          · exact Or.inl h2
          · simp at h2
            subst h2
            exact Or.inr (List.mem_cons_self _ _)
        · exact Or.inr (List.mem_cons_of_mem _ h1)
      · rintro (h1 | h1)
        · exact Or.inl (List.mem_append.mpr (Or.inl h1))
        · rcases List.mem_cons.mp h1 with h2 | h2
          · subst h2
            exact Or.inl (List.mem_append.mpr (Or.inr (by simp)))
          · exact Or.inr h2

theorem addNew_nodup : ∀ (ds acc : List String), acc.Nodup →
    (addNew acc ds).Nodup
  | [], acc, h => h
  | d :: ds, acc, h => by
    unfold addNew
    simp only [List.foldl_cons]
    have hstep : (if d ∈ acc then acc else acc ++ [d]).Nodup := by
      by_cases hd : d ∈ acc
      · simpa [hd] using h
      · rw [if_neg hd]
        simp [List.nodup_append, h, hd]
    have := addNew_nodup ds (if d ∈ acc then acc else acc ++ [d]) hstep
    unfold addNew at this
    exact this

theorem addNew_shape : ∀ (ds acc : List String),
    ∃ ex, addNew acc ds = acc ++ ex ∧ ∀ x ∈ ex, x ∈ ds
  | [], acc => ⟨[], by simp [addNew], by simp⟩
  | d :: ds, acc => by
    unfold addNew
    simp only [List.foldl_cons]
    by_cases hd : d ∈ acc
    · rw [if_pos hd]
      obtain ⟨ex, he, hm⟩ := addNew_shape ds acc
      unfold addNew at he
      exact ⟨ex, he, fun x hx => List.mem_cons_of_mem _ (hm x hx)⟩
    · rw [if_neg hd]
      obtain ⟨ex, he, hm⟩ := addNew_shape ds (acc ++ [d])
      unfold addNew at he
      refine ⟨d :: ex, ?_, ?_⟩
      · rw [he]
        simp
      · intro x hx
        rcases List.mem_cons.mp hx with h1 | h1
        · subst h1; exact List.mem_cons_self _ _
        · exact List.mem_cons_of_mem _ (hm x h1)

theorem mem_bigDeps (reg : List Task) : ∀ (acc : List String) (n x : String),
    n ∈ acc → x ∈ depsOf reg n →
    x ∈ acc.foldr (fun m l => depsOf reg m ++ l) []
  | [], _, _, hn, _ => absurd hn (by simp)
  | a :: l, n, x, hn, hx => by
    simp only [List.foldr_cons]
    rcases List.mem_cons.mp hn with h1 | h1
    · subst h1
      exact List.mem_append.mpr (Or.inl hx)
    · exact List.mem_append.mpr (Or.inr (mem_bigDeps reg l n x h1 hx))

theorem length_le_of_nodup_registered (reg : List Task) (acc : List String)
    (hnd : acc.Nodup) (hreg : ∀ x ∈ acc, registered reg x = true) :
    acc.length ≤ reg.length := by
  have hsub : acc ⊆ reg.map Task.name := by
    intro x hx
    have h2 := hreg x hx
    unfold registered at h2
    rw [List.any_eq_true] at h2
    obtain ⟨t, ht, he⟩ := h2
    exact List.mem_map.mpr ⟨t, ht, by simpa using he⟩
  have := (hnd.subperm hsub).length_le
  simpa using this

theorem closureStep_subset (reg : List Task) (acc : List String) :
    ∀ x ∈ acc, x ∈ closureStep reg acc := by
  intro x hx
  unfold closureStep
  exact (mem_addNew_iff _ acc x).mpr (Or.inl hx)

theorem closureStep_registered (reg : List Task) (acc : List String)
    (h : ∀ x ∈ acc, registered reg x = true) :
    ∀ x ∈ closureStep reg acc, registered reg x = true := by
  intro x hx
  unfold closureStep at hx
  rcases (mem_addNew_iff _ acc x).mp hx with h1 | h1
  · exact h x h1
  · exact List.of_mem_filter h1

theorem closureStep_fix_closed (reg : List Task) (acc : List String)
    (hfix : closureStep reg acc = acc) :
    ∀ n ∈ acc, ∀ d ∈ depsOf reg n, registered reg d = true → d ∈ acc := by
  intro n hn d hd hr
  rw [← hfix]
  unfold closureStep
  refine (mem_addNew_iff _ acc d).mpr (Or.inr ?_)
  exact List.mem_filter.mpr ⟨mem_bigDeps reg acc n d hn hd, hr⟩

theorem closureIter_spec (reg : List Task) : ∀ (fuel : Nat) (acc : List String),
    acc.Nodup → (∀ x ∈ acc, registered reg x = true) →
    reg.length + 1 ≤ fuel + acc.length →
    closureStep reg (closureIter reg fuel acc) = closureIter reg fuel acc ∧
    (∀ x ∈ acc, x ∈ closureIter reg fuel acc) ∧
    (closureIter reg fuel acc).Nodup ∧
    (∀ x ∈ closureIter reg fuel acc, registered reg x = true)
  | 0, acc, hnd, hreg, hb => by
    have := length_le_of_nodup_registered reg acc hnd hreg
    omega
  | Nat.succ fuel, acc, hnd, hreg, hb => by
    by_cases hlen : (closureStep reg acc).length = acc.length
    · have hfix : closureStep reg acc = acc := by
        obtain ⟨ex, he, _⟩ := addNew_shape
          ((acc.foldr (fun n l => depsOf reg n ++ l) []).filter (registered reg))
          acc
        unfold closureStep
        unfold closureStep at hlen
        rw [he] at hlen ⊢
        have hex : ex = [] := by
          rw [List.length_append] at hlen
          have : ex.length = 0 := by omega
          exact List.length_eq_zero.mp this
        rw [hex]
        simp
      have hres : closureIter reg (Nat.succ fuel) acc = acc := by
        unfold closureIter
        rw [if_pos hlen]
      rw [hres]
      exact ⟨hfix, fun x hx => hx, hnd, hreg⟩
    · have hres : closureIter reg (Nat.succ fuel) acc =
          closureIter reg fuel (closureStep reg acc) := by
        rw [closureIter]
        simp only [if_neg hlen]
      have hnd2 : (closureStep reg acc).Nodup := addNew_nodup _ acc hnd
      have hreg2 := closureStep_registered reg acc hreg
      have hgrow : acc.length + 1 ≤ (closureStep reg acc).length := by
        obtain ⟨ex, he, _⟩ := addNew_shape
          ((acc.foldr (fun n l => depsOf reg n ++ l) []).filter (registered reg))
          acc
        unfold closureStep at hlen ⊢
        rw [he] at hlen ⊢
        rw [List.length_append] at hlen ⊢
        have : ex.length ≠ 0 := by
          intro h0; omega
        omega
      have ih := closureIter_spec reg fuel (closureStep reg acc) hnd2 hreg2
        (by omega)
      rw [hres]
      exact ⟨ih.1, fun x hx => ih.2.1 x (closureStep_subset reg acc x hx),
        ih.2.2.1, ih.2.2.2⟩

/-- Properties of the computed closure: it contains the targets, contains
only registered names, and is closed under registered dependencies. -/
theorem closure_props (reg : List Task) (targets : List String)
    (htr : ∀ z ∈ targets, registered reg z = true) :
    (∀ z ∈ targets, z ∈ closure reg targets) ∧
    (∀ x ∈ closure reg targets, registered reg x = true) ∧
    (∀ n ∈ closure reg targets, ∀ d ∈ depsOf reg n,
      registered reg d = true → d ∈ closure reg targets) := by
  have h0nd : (addNew [] targets).Nodup := addNew_nodup targets [] (by simp)
  have h0reg : ∀ x ∈ addNew [] targets, registered reg x = true := by
    intro x hx
    rcases (mem_addNew_iff targets [] x).mp hx with h1 | h1
    · simp at h1
    · exact htr x h1
  have hs := closureIter_spec reg (reg.length + 1) (addNew [] targets) h0nd
    h0reg (by omega)
  refine ⟨?_, hs.2.2.2, ?_⟩
  · intro z hz
    exact hs.2.1 z ((mem_addNew_iff targets [] z).mpr (Or.inr hz))
  · intro n hn d hd hr
    exact closureStep_fix_closed reg (closure reg targets) hs.1 n hn d hd hr

/-- A pending task left untouched by a pass has no failed dependency and is
not schedulable (a dependency is unsatisfied or an input file is missing). -/
theorem processTask_stalled (reg : List Task) (w : World) (force : Bool)
    (st : String → TState) (n : String) (t : Task)
    (hp : st n = TState.pending) (hget : getTask? reg n = Option.some t)
    (hch : (processTask reg w force st n).changed = false) :
    firstFailedDep st t.depends = Option.none ∧
    ¬(t.depends.all (fun d => satisfiedSt (st d)) = true ∧
      t.input_files.all (fun p => (w.mtime p).isSome) = true) := by
  revert hch
  unfold processTask
  rw [if_pos hp]
  simp only [hget]
  split
  · intro hch; simp at hch
  · rename_i hffd
    split
    · rename_i hall
      split
      · rename_i hins
        split
        · split
          · intro hch; simp at hch
          · intro hch; simp at hch
        · intro hch; simp at hch
      · rename_i hins
        intro _
        exact ⟨hffd, fun hc => hins hc.2⟩
    · rename_i hall
      intro _
      exact ⟨hffd, fun hc => hall hc.1⟩

/-- At the end of a run, a task whose dependencies are all satisfied and
whose inputs are present is not left pending. -/
theorem final_not_pending (reg : List Task) (w : World) (force : Bool)
    (cl : List String) (st : String → TState)
    (hdisj : allTerminalB cl st = true ∨
      (passGo reg w force cl st).changed = false)
    (n : String) (t : Task) (hn : n ∈ cl)
    (hget : getTask? reg n = Option.some t)
    (hsat : ∀ d ∈ t.depends, satisfiedSt (st d) = true)
    (hins : t.input_files.all (fun p => (w.mtime p).isSome) = true) :
    st n ≠ TState.pending := by
  intro hp
  rcases hdisj with hterm | hstall
  · have h2 := List.all_eq_true.mp hterm n hn
    rw [hp] at h2
    simp [terminalSt] at h2
  · have hnc := passGo_nochange reg w force cl st hstall
    have h1 := hnc.2 n hn
    have h2 := processTask_stalled reg w force st n t hp hget h1
    exact h2.2 ⟨List.all_eq_true.mpr hsat, hins⟩

/-- At the end of a run, a task with a failed dependency is not left
pending. -/
theorem final_not_pending_failed_dep (reg : List Task) (w : World)
    (force : Bool) (cl : List String) (st : String → TState)
    (hdisj : allTerminalB cl st = true ∨
      (passGo reg w force cl st).changed = false)
    (n d : String) (t : Task) (hn : n ∈ cl)
    (hget : getTask? reg n = Option.some t)
    (hd : d ∈ t.depends) (hf : failedSt (st d) = true) :
    st n ≠ TState.pending := by
  intro hp
  rcases hdisj with hterm | hstall
  · have h2 := List.all_eq_true.mp hterm n hn
    rw [hp] at h2
    simp [terminalSt] at h2
  · have hnc := passGo_nochange reg w force cl st hstall
    have h1 := hnc.2 n hn
    have h2 := processTask_stalled reg w force st n t hp hget h1
    have h3 : t.depends.find? (fun x => failedSt (st x)) = Option.none := h2.1
    have h4 := List.find?_eq_none.mp h3 d hd
    rw [hf] at h4
    exact h4 rfl

theorem exists_min_rank (rank : String → Nat) :
    ∀ l : List String, l ≠ [] → ∃ n ∈ l, ∀ m ∈ l, rank n ≤ rank m
  | [], h => absurd rfl h
  | a :: l, _ => by
    by_cases hl : l = []
    · subst hl
      refine ⟨a, by simp, ?_⟩
      intro m hm
      simp at hm
      subst hm
      exact Nat.le_refl _
    · obtain ⟨n, hn, hmin⟩ := exists_min_rank rank l hl
      by_cases hab : rank a ≤ rank n
      · refine ⟨a, by simp, ?_⟩
        intro m hm
        rcases List.mem_cons.mp hm with h1 | h1
        · subst h1; exact Nat.le_refl _
        · exact Nat.le_trans hab (hmin m h1)
      · refine ⟨n, List.mem_cons_of_mem _ hn, ?_⟩
        intro m hm
        rcases List.mem_cons.mp hm with h1 | h1
        · subst h1; omega
        · exact hmin m h1

/-- At the end of a run, a task with a failed dependency ends
`FAILED_PROPAGATED` and was never submitted. -/
theorem final_failed_dep_state (reg : List Task) (w : World) (force : Bool)
    (cl : List String) (st : String → TState) (tr : List Event)
    (hinv : RunInv reg w force cl st tr)
    (hdisj : allTerminalB cl st = true ∨
      (passGo reg w force cl st).changed = false)
    (n d : String) (t : Task) (hn : n ∈ cl)
    (hget : getTask? reg n = Option.some t)
    (hd : d ∈ t.depends) (hf : failedSt (st d) = true) :
    st n = TState.failedProp ∧ Event.submitted n ∉ tr := by
  have hdeps : depsOf reg n = t.depends := by simp [depsOf, hget]
  have hnp := final_not_pending_failed_dep reg w force cl st hdisj n d t hn
    hget hd hf
  have hnosub : Event.submitted n ∉ tr := by
    intro hs
    have h2 := hinv.subDeps n hs d (by rw [hdeps]; exact hd)
    rw [satisfied_not_failed h2] at hf
    exact absurd hf (by simp)
  rcases hsn : st n with p | p | p | p | p | p
  · exact absurd hsn hnp
  · exact absurd hsn (hinv.noRun n)
  · exact absurd (hinv.doneSub n hsn) hnosub
  · have hsk := hinv.skipEvM n hsn
    have h2 := hinv.skipDeps n hsk d (by rw [hdeps]; exact hd)
    rw [satisfied_not_failed h2] at hf
    exact absurd hf (by simp)
  · exact absurd (hinv.failedEv n hsn).1 hnosub
  · exact ⟨rfl, hnosub⟩

/-- Transitive dependency: `Reach reg a b` holds when `b` is reachable from
`a` by following `depends` edges. -/
inductive Reach (reg : List Task) : String → String → Prop where
  | direct {a b : String} (h : b ∈ depsOf reg a) : Reach reg a b
  | step {a m b : String} (hm : m ∈ depsOf reg a) (h : Reach reg m b) :
      Reach reg a b

theorem reach_has_task (reg : List Task) (a b : String)
    (h : Reach reg a b) : ∃ t, getTask? reg a = Option.some t := by
  cases h with
  | direct h2 =>
    cases hg : getTask? reg a with
    | none => unfold depsOf at h2; rw [hg] at h2; simp at h2
    | some t => exact ⟨t, rfl⟩
  | step hm h2 =>
    cases hg : getTask? reg a with
    | none => unfold depsOf at hm; rw [hg] at hm; simp at hm
    | some t => exact ⟨t, rfl⟩

/-- Failure propagation reaches every transitive dependent inside the
closure. -/
theorem reach_failedProp (reg : List Task) (w : World) (force : Bool)
    (cl : List String) (st : String → TState) (tr : List Event)
    (hinv : RunInv reg w force cl st tr)
    (hdisj : allTerminalB cl st = true ∨
      (passGo reg w force cl st).changed = false)
    (hclosed : ∀ n ∈ cl, ∀ d ∈ depsOf reg n,
      registered reg d = true → d ∈ cl) :
    ∀ (T B : String), Reach reg T B → failedSt (st B) = true → T ∈ cl →
      st T = TState.failedProp ∧ Event.submitted T ∉ tr := by
  intro T B hr
  induction hr with
  | direct h =>
    rename_i a b
    intro hB hT
    obtain ⟨t, hget⟩ := reach_has_task reg a b (Reach.direct h)
    have hdeps : depsOf reg a = t.depends := by simp [depsOf, hget]
    rw [hdeps] at h
    exact final_failed_dep_state reg w force cl st tr hinv hdisj a b t hT
      hget h hB
  | step hm h2 ih =>
    rename_i a m b
    intro hB hT
    obtain ⟨tm, hgetm⟩ := reach_has_task reg m b h2
    have hregm : registered reg m = true :=
      registered_of_getTask? reg m tm hgetm
    have hmcl : m ∈ cl := hclosed a hT m hm hregm
    have ihm := ih hB hmcl
    have hfm : failedSt (st m) = true := by rw [ihm.1]; rfl
    obtain ⟨t, hget⟩ := reach_has_task reg a m (Reach.direct hm)
    have hdeps : depsOf reg a = t.depends := by simp [depsOf, hget]
    rw [hdeps] at hm
    exact final_failed_dep_state reg w force cl st tr hinv hdisj a m t hT
      hget hm hfm

/-- With an acyclic, fully registered graph and all input files present,
every closure task reaches a terminal state. -/
theorem all_terminal_of_clean (reg : List Task) (w : World) (force : Bool)
    (cl : List String) (st : String → TState) (tr : List Event)
    (hinv : RunInv reg w force cl st tr)
    (hdisj : allTerminalB cl st = true ∨
      (passGo reg w force cl st).changed = false)
    (hclosed : ∀ n ∈ cl, ∀ d ∈ depsOf reg n,
      registered reg d = true → d ∈ cl)
    (hclreg : ∀ x ∈ cl, registered reg x = true)
    (rank : String → Nat)
    (hrank : ∀ t ∈ reg, ∀ d ∈ t.depends, rank d < rank t.name)
    (hknown : ∀ t ∈ reg, ∀ d ∈ t.depends, registered reg d = true)
    (hins : ∀ t ∈ reg, ∀ p ∈ t.input_files, (w.mtime p).isSome = true) :
    allTerminalB cl st = true := by
  by_contra hterm
  have hpend : pendingInClosure cl st = true :=
    pending_of_not_terminal cl st hinv.noRun hterm
  have hPne : cl.filter (fun n => decide (st n = TState.pending)) ≠ [] := by
    unfold pendingInClosure at hpend
    rw [List.any_eq_true] at hpend
    obtain ⟨x, hx, hxp⟩ := hpend
    intro h0
    have hxP : x ∈ cl.filter (fun n => decide (st n = TState.pending)) :=
      List.mem_filter.mpr ⟨hx, hxp⟩
    rw [h0] at hxP
    simp at hxP
  obtain ⟨n, hnP, hmin⟩ := exists_min_rank rank _ hPne
  have hncl : n ∈ cl := (List.mem_filter.mp hnP).1
  have hnp : st n = TState.pending := by
    have := (List.mem_filter.mp hnP).2
    simpa using this
  obtain ⟨t, hget⟩ := getTask?_some_of_registered reg n (hclreg n hncl)
  obtain ⟨htmem, htname⟩ := getTask?_mem reg n t hget
  have hdeps : depsOf reg n = t.depends := by simp [depsOf, hget]
  have hsat : ∀ d ∈ t.depends, satisfiedSt (st d) = true := by
    intro d hd
    have hregd : registered reg d = true := hknown t htmem d hd
    have hdcl : d ∈ cl := hclosed n hncl d (by rw [hdeps]; exact hd) hregd
    have hrankd : rank d < rank n := by
      have := hrank t htmem d hd
      rwa [htname] at this
    have hdnp : st d ≠ TState.pending := by
      intro hdp
      have hdP : d ∈ cl.filter (fun m => decide (st m = TState.pending)) :=
        List.mem_filter.mpr ⟨hdcl, by simp [hdp]⟩
      have := hmin d hdP
      omega
    have hdnf : failedSt (st d) = false := by
      by_contra hf
      have hf2 : failedSt (st d) = true := by simpa using hf
      exact (final_not_pending_failed_dep reg w force cl st hdisj n d t hncl
        hget hd hf2) hnp
    rcases hsd : st d with q | q | q | q | q | q
    · exact absurd hsd hdnp
    · exact absurd hsd (hinv.noRun d)
    · rfl
    · rfl
    · rw [hsd] at hdnf; simp [failedSt] at hdnf
    · rw [hsd] at hdnf; simp [failedSt] at hdnf
  have hinsn : t.input_files.all (fun p => (w.mtime p).isSome) = true := by
    rw [List.all_eq_true]
    intro p hp2
    exact hins t htmem p hp2
  exact (final_not_pending reg w force cl st hdisj n t hncl hget hsat hinsn)
    hnp

theorem mem_output_iff (b : Bool) (tr : List Event) (e : Event) :
    e ∈ (Event.summary b :: tr).reverse ↔ (e = Event.summary b ∨ e ∈ tr) := by
  rw [List.mem_reverse]
  exact List.mem_cons

theorem allTerminal_no_pending (cl : List String) (st : String → TState)
    (h : allTerminalB cl st = true) : pendingInClosure cl st = false := by
  by_contra hp
  have hp2 : pendingInClosure cl st = true := by simpa using hp
  unfold pendingInClosure at hp2
  rw [List.any_eq_true] at hp2
  obtain ⟨x, hx, hxp⟩ := hp2
  have h2 := List.all_eq_true.mp h x hx
  have hxp2 : st x = TState.pending := by simpa using hxp
  rw [hxp2] at h2
  simp [terminalSt] at h2

theorem should_run_false_inputs (t : Task) (w : World)
    (h : t.should_run w = false) :
    t.input_files.all (fun p => (w.mtime p).isSome) = true := by
  revert h
  unfold Task.should_run
  split
  · intro h; exact absurd h (by simp)
  · split
    · intro h; exact absurd h (by simp)
    · split
      · intro h; exact absurd h (by simp)
      · rename_i h3
        intro _
        rw [List.all_eq_true]
        intro p hp
        cases hmt : w.mtime p with
        | none =>
          exact absurd (List.any_eq_true.mpr ⟨p, hp, by rw [hmt]; rfl⟩) h3
        | some v => rfl

/-- Claim C1, general part: in every successful run the output trace respects
dependency order - every submission of a task is preceded by a satisfying
completion or skip of each of its dependencies. -/
theorem spec_c1 (reg : List Task) (w : World) (targets : List String)
    (force : Bool) (r : RunResult)
    (h : run_tasks reg w targets force = Except.ok r) :
    OrderedOut reg r.output := by
  obtain ⟨tr, hout, hinv, _, _, _, _⟩ := run_ok_facts reg w targets force r h
  rw [hout]
  exact orderedOut_of_orderedRev reg _
    (orderedRev_cons_other reg _ tr hinv.ordered (by simp))

/-- Claim C10: a successful run always reaches the scheduling loop's genuine
stopping condition (it never spins forever), ending either with every
closure task terminal or having emitted the deadlock warning. -/
theorem spec_c10 (reg : List Task) (w : World) (targets : List String)
    (force : Bool) (r : RunResult)
    (h : run_tasks reg w targets force = Except.ok r) :
    r.ended = true ∧
    (allTerminalB (closure reg targets) r.st = true ∨
      Event.deadlockWarning ∈ r.output) := by
  obtain ⟨tr, hout, _, hend, hdisj, _, _⟩ := run_ok_facts reg w targets force r h
  refine ⟨hend, ?_⟩
  rcases hdisj with h1 | h1
  · exact Or.inl h1
  · refine Or.inr ?_
    rw [hout]
    exact (mem_output_iff _ tr _).mpr (Or.inr h1.2.2)

/-- Claim C7: a successful run in which some closure task is left pending has
emitted the no-runnable-tasks warning - a stall is never silent. -/
theorem spec_c7 (reg : List Task) (w : World) (targets : List String)
    (force : Bool) (r : RunResult)
    (h : run_tasks reg w targets force = Except.ok r)
    (hp : pendingInClosure (closure reg targets) r.st = true) :
    Event.deadlockWarning ∈ r.output := by
  obtain ⟨tr, hout, _, _, hdisj, _, _⟩ := run_ok_facts reg w targets force r h
  rcases hdisj with h1 | h1
  · rw [allTerminal_no_pending _ _ h1] at hp
    exact absurd hp (by simp)
  · rw [hout]
    exact (mem_output_iff _ tr _).mpr (Or.inr h1.2.2)

/-- Claim C3: without forcing, an up-to-date candidate (dependencies
satisfied, `should_run()` false) ends the run `SKIPPED` and is never
submitted; skipped and done states are interchangeable for readiness. -/
theorem spec_c3 (reg : List Task) (w : World) (targets : List String)
    (r : RunResult) (n : String) (t : Task)
    (h : run_tasks reg w targets false = Except.ok r)
    (hn : n ∈ closure reg targets)
    (hget : getTask? reg n = Option.some t)
    (hsat : ∀ d ∈ t.depends, satisfiedSt (r.st d) = true)
    (hsr : t.should_run w = false) :
    (r.st n = TState.skipped ∧ Event.skipEv n ∈ r.output ∧
      Event.submitted n ∉ r.output) ∧
    satisfiedSt TState.skipped = satisfiedSt TState.done := by
  obtain ⟨tr, hout, hinv, _, hdisj0, _, _⟩ := run_ok_facts reg w targets false r h
  have hdisj : allTerminalB (closure reg targets) r.st = true ∨
      (passGo reg w false (closure reg targets) r.st).changed = false :=
    hdisj0.imp id (fun h2 => h2.1)
  have hins := should_run_false_inputs t w hsr
  have hdeps : depsOf reg n = t.depends := by simp [depsOf, hget]
  have hnp := final_not_pending reg w false (closure reg targets) r.st hdisj
    n t hn hget hsat hins
  have hnosub : Event.submitted n ∉ tr := by
    intro hs
    rcases hinv.subRun n hs with hf | ⟨t2, hget2, hsr2⟩
    · exact absurd hf (by simp)
    · rw [hget] at hget2
      have he := Option.some.inj hget2
      rw [← he] at hsr2
      rw [hsr] at hsr2
      exact absurd hsr2 (by simp)
  refine ⟨?_, rfl⟩
  rcases hsn : r.st n with p | p | p | p | p | p
  · exact absurd hsn hnp
  · exact absurd hsn (hinv.noRun n)
  · exact absurd (hinv.doneSub n hsn) hnosub
  · refine ⟨rfl, ?_, ?_⟩
    · rw [hout]
      exact (mem_output_iff _ tr _).mpr (Or.inr (hinv.skipEvM n hsn))
    · intro hmem
      rw [hout] at hmem
      rcases (mem_output_iff _ tr _).mp hmem with h1 | h1
      · exact absurd h1 (by simp)
      · exact hnosub h1
  · exact absurd (hinv.failedEv n hsn).1 hnosub
  · obtain ⟨d, hd, hdf⟩ := hinv.propDep n hsn
    rw [hdeps] at hd
    rw [satisfied_not_failed (hsat d hd)] at hdf
    exact absurd hdf (by simp)

/-- Claim C9 (amended): under `force=true` nothing is ever skipped, and every
closure task whose dependencies end satisfied and whose declared inputs are
present was submitted and executed, ending `DONE` or `FAILED`. -/
theorem spec_c9 (reg : List Task) (w : World) (targets : List String)
    (r : RunResult)
    (h : run_tasks reg w targets true = Except.ok r) :
    (∀ n, r.st n ≠ TState.skipped) ∧
    (∀ n, Event.skipEv n ∉ r.output) ∧
    (∀ n t, n ∈ closure reg targets → getTask? reg n = Option.some t →
      (∀ d ∈ t.depends, satisfiedSt (r.st d) = true) →
      t.input_files.all (fun p => (w.mtime p).isSome) = true →
      Event.submitted n ∈ r.output ∧
        (r.st n = TState.done ∨ r.st n = TState.failed)) := by
  obtain ⟨tr, hout, hinv, _, hdisj0, _, _⟩ := run_ok_facts reg w targets true r h
  have hdisj : allTerminalB (closure reg targets) r.st = true ∨
      (passGo reg w true (closure reg targets) r.st).changed = false :=
    hdisj0.imp id (fun h2 => h2.1)
  have hnoskip : ∀ n, r.st n ≠ TState.skipped := by
    intro n hsk
    exact hinv.skipForce rfl n (hinv.skipEvM n hsk)
  refine ⟨hnoskip, ?_, ?_⟩
  · intro n hmem
    rw [hout] at hmem
    rcases (mem_output_iff _ tr _).mp hmem with h1 | h1
    · exact absurd h1 (by simp)
    · exact hinv.skipForce rfl n h1
  · intro n t hn hget hsat hins
    have hdeps : depsOf reg n = t.depends := by simp [depsOf, hget]
    have hnp := final_not_pending reg w true (closure reg targets) r.st hdisj
      n t hn hget hsat hins
    have hsubout : Event.submitted n ∈ tr → Event.submitted n ∈ r.output := by
      intro h2
      rw [hout]
      exact (mem_output_iff _ tr _).mpr (Or.inr h2)
    rcases hsn : r.st n with p | p | p | p | p | p
    · exact absurd hsn hnp
    · exact absurd hsn (hinv.noRun n)
    · exact ⟨hsubout (hinv.doneSub n hsn), Or.inl rfl⟩
    · exact absurd hsn (hnoskip n)
    · exact ⟨hsubout (hinv.failedEv n hsn).1, Or.inr rfl⟩
    · obtain ⟨d, hd, hdf⟩ := hinv.propDep n hsn
      rw [hdeps] at hd
      rw [satisfied_not_failed (hsat d hd)] at hdf
      exact absurd hdf (by simp)

/-- Claim C2 (amended): when a task `B` fails during a successful run, every
closure task that transitively depends on `B` ends `FAILED_PROPAGATED` and
was never submitted, a failure message naming `B` is emitted, and the final
output line is the failure summary; under an acyclic fully-registered graph
with all input files present, every closure task still reaches a terminal
state. -/
theorem spec_c2 (reg : List Task) (w : World) (targets : List String)
    (force : Bool) (r : RunResult) (B : String)
    (h : run_tasks reg w targets force = Except.ok r)
    (hB : r.st B = TState.failed) :
    (∀ T ∈ closure reg targets, Reach reg T B →
      r.st T = TState.failedProp ∧ Event.submitted T ∉ r.output) ∧
    (∃ e, Event.taskFailed B e ∈ r.output) ∧
    r.output.getLast? = Option.some (Event.summary false) ∧
    (∀ rank : String → Nat,
      (∀ t ∈ reg, ∀ d ∈ t.depends, rank d < rank t.name) →
      (∀ t ∈ reg, ∀ d ∈ t.depends, registered reg d = true) →
      (∀ t ∈ reg, ∀ p ∈ t.input_files, (w.mtime p).isSome = true) →
      ∀ D ∈ closure reg targets, terminalSt (r.st D) = true) := by
  obtain ⟨tr, hout, hinv, _, hdisj0, hreg, _⟩ :=
    run_ok_facts reg w targets force r h
  have hdisj : allTerminalB (closure reg targets) r.st = true ∨
      (passGo reg w force (closure reg targets) r.st).changed = false :=
    hdisj0.imp id (fun h2 => h2.1)
  have hclosed := (closure_props reg targets hreg).2.2
  have hfB : failedSt (r.st B) = true := by rw [hB]; rfl
  have hBcl : B ∈ closure reg targets := hinv.inCl B (by rw [hB]; simp)
  have hany : (closure reg targets).any (fun n => failedSt (r.st n)) = true :=
    List.any_eq_true.mpr ⟨B, hBcl, hfB⟩
  refine ⟨?_, ?_, ?_, ?_⟩
  · intro T hT hreach
    have h2 := reach_failedProp reg w force (closure reg targets) r.st tr hinv
      hdisj hclosed T B hreach hfB hT
    refine ⟨h2.1, ?_⟩
    intro hmem
    rw [hout] at hmem
    rcases (mem_output_iff _ tr _).mp hmem with h3 | h3
    · exact absurd h3 (by simp)
    · exact h2.2 h3
  · obtain ⟨_, _, e, he⟩ := hinv.failedEv B hB
    refine ⟨e, ?_⟩
    rw [hout]
    exact (mem_output_iff _ tr _).mpr (Or.inr he)
  · rw [hout, hany]
    rw [List.reverse_cons]
    rw [List.getLast?_concat]
    rfl
  · intro rank h1 h2 h3 D hD
    have hclreg := (closure_props reg targets hreg).2.1
    have hterm := all_terminal_of_clean reg w force (closure reg targets)
      r.st tr hinv hdisj hclosed hclreg rank h1 h2 h3
    exact List.all_eq_true.mp hterm D hD

/-- Whether a run result is a success (used to rule out the error branch when
evaluating concrete runs). -/
def isOkRun (x : Except RunError RunResult) : Bool :=
  match x with
  | Except.ok _ => true
  | Except.error _ => false

/-- World with no files, all shell commands succeeding and all callables
returning normally. -/
def wNone : World :=
  ⟨fun _ => Option.none, fun _ => 0, fun _ => Option.none⟩

/-- Two tasks: `B` depends on `A` (the ordering scenario of the test
suite). -/
def regAB : List Task :=
  [⟨"A", [], [], [], ExecBody.noBody⟩, ⟨"B", ["A"], [], [], ExecBody.noBody⟩]

theorem spec_c1_witness :
    ∃ r, run_tasks regAB wNone ["B"] false = Except.ok r ∧
      OrderedOut regAB r.output ∧
      r.output = [Event.submitted "A", Event.finished "A" true,
        Event.submitted "B", Event.finished "B" true,
        Event.summary true] := by
  cases h : run_tasks regAB wNone ["B"] false with
  | error e =>
    have hok : isOkRun (run_tasks regAB wNone ["B"] false) = true := by decide
    rw [h] at hok
    simp [isOkRun] at hok
  | ok r =>
    have ho : r.output = okOut (run_tasks regAB wNone ["B"] false) := by
      rw [h]
      rfl
    refine ⟨r, rfl, spec_c1 regAB wNone ["B"] false r h, ?_⟩
    rw [ho]
    decide

/-- World in which the callable `fb` raises. -/
def wFailB : World :=
  ⟨fun _ => Option.none, fun _ => 0,
    fun f => if f = "fb" then Option.some "boom" else Option.none⟩

/-- A failing task `B` next to an independent task `D` whose input file never
exists. -/
def regBD : List Task :=
  [⟨"B", [], [], [], ExecBody.func "fb"⟩,
   ⟨"D", [], ["missing.txt"], [], ExecBody.noBody⟩]

theorem spec_c2_counterexample :
    okSt (run_tasks regBD wFailB ["B", "D"] false) "B" = TState.failed ∧
    (¬ Reach regBD "D" "B") ∧
    "D" ∈ closure regBD ["B", "D"] ∧
    terminalSt (okSt (run_tasks regBD wFailB ["B", "D"] false) "D") = false := by
  refine ⟨by decide, ?_, by decide, by decide⟩
  have hD : depsOf regBD "D" = [] := by decide
  intro h
  cases h with
  | direct h2 => rw [hD] at h2; exact absurd h2 (by simp)
  | step hm h2 => rw [hD] at hm; exact absurd hm (by simp)

/-- Diamond-free chain `A <- B <- C` with failing `B`, plus independent
`D`. -/
def regABCD : List Task :=
  [⟨"A", [], [], [], ExecBody.noBody⟩,
   ⟨"B", ["A"], [], [], ExecBody.func "fb"⟩,
   ⟨"C", ["B"], [], [], ExecBody.noBody⟩,
   ⟨"D", [], [], [], ExecBody.noBody⟩]

/-- Topological ranking of `regABCD`. -/
def rankABCD : String → Nat :=
  fun n => if n = "A" then 0 else if n = "B" then 1 else
    if n = "C" then 2 else 0

theorem spec_c2_witness :
    ∃ r, run_tasks regABCD wFailB ["C", "D"] false = Except.ok r ∧
      r.st "B" = TState.failed ∧ r.st "C" = TState.failedProp ∧
      Event.submitted "C" ∉ r.output ∧
      (∃ e, Event.taskFailed "B" e ∈ r.output) ∧
      r.output.getLast? = Option.some (Event.summary false) ∧
      terminalSt (r.st "D") = true := by
  cases h : run_tasks regABCD wFailB ["C", "D"] false with
  | error e =>
    have hok : isOkRun (run_tasks regABCD wFailB ["C", "D"] false) = true := by
      decide
    rw [h] at hok
    simp [isOkRun] at hok
  | ok r =>
    have hB : r.st "B" = TState.failed := by
      have h2 : okSt (run_tasks regABCD wFailB ["C", "D"] false) "B" =
          TState.failed := by decide
      rw [h] at h2
      exact h2
    have hmain := spec_c2 regABCD wFailB ["C", "D"] false r "B" h hB
    have hC := hmain.1 "C" (by decide) (Reach.direct (by decide))
    have hterm := hmain.2.2.2 rankABCD (by decide) (by decide) (by decide)
      "D" (by decide)
    exact ⟨r, rfl, hB, hC.1, hC.2, hmain.2.1, hmain.2.2.1, hterm⟩

/-- World in which only `a.txt` exists. -/
def wUpToDate : World :=
  ⟨fun p => if p = "a.txt" then Option.some 5 else Option.none,
   fun _ => 0, fun _ => Option.none⟩

/-- Up-to-date `A` (its output `a.txt` exists) with a stale dependent `B`. -/
def regSkipDep : List Task :=
  [⟨"A", [], [], ["a.txt"], ExecBody.noBody⟩,
   ⟨"B", ["A"], [], ["b.txt"], ExecBody.noBody⟩]

theorem spec_c3_witness :
    ∃ r, run_tasks regSkipDep wUpToDate ["B"] false = Except.ok r ∧
      r.st "A" = TState.skipped ∧ Event.skipEv "A" ∈ r.output ∧
      Event.submitted "A" ∉ r.output ∧ r.st "B" = TState.done ∧
      Event.finished "B" true ∈ r.output := by
  cases h : run_tasks regSkipDep wUpToDate ["B"] false with
  | error e =>
    have hok : isOkRun (run_tasks regSkipDep wUpToDate ["B"] false) = true := by
      decide
    rw [h] at hok
    simp [isOkRun] at hok
  | ok r =>
    have hA := spec_c3 regSkipDep wUpToDate ["B"] r "A"
      ⟨"A", [], [], ["a.txt"], ExecBody.noBody⟩ h (by decide) (by decide)
      (fun d hd => absurd hd (List.not_mem_nil d)) (by decide)
    have hB : r.st "B" = TState.done := by
      have h2 : okSt (run_tasks regSkipDep wUpToDate ["B"] false) "B" =
          TState.done := by decide
      rw [h] at h2
      exact h2
    have hBf : Event.finished "B" true ∈ r.output := by
      have h2 : Event.finished "B" true ∈
          okOut (run_tasks regSkipDep wUpToDate ["B"] false) := by decide
      rw [h] at h2
      exact h2
    exact ⟨r, rfl, hA.1.1, hA.1.2.1, hA.1.2.2, hB, hBf⟩

/-- A task whose declared input file never exists (the deadlock scenario of
the test suite). -/
def regDead : List Task :=
  [⟨"A", [], ["missing.txt"], ["a.txt"], ExecBody.noBody⟩]

theorem spec_c7_witness :
    ∃ r, run_tasks regDead wNone ["A"] false = Except.ok r ∧
      Event.deadlockWarning ∈ r.output := by
  cases h : run_tasks regDead wNone ["A"] false with
  | error e =>
    have hok : isOkRun (run_tasks regDead wNone ["A"] false) = true := by
      decide
    rw [h] at hok
    simp [isOkRun] at hok
  | ok r =>
    have hA : r.st "A" = TState.pending := by
      have h2 : okSt (run_tasks regDead wNone ["A"] false) "A" =
          TState.pending := by decide
      rw [h] at h2
      exact h2
    have hcl : closure regDead ["A"] = ["A"] := by decide
    have hp : pendingInClosure (closure regDead ["A"]) r.st = true := by
      rw [hcl]
      simp [pendingInClosure, hA]
    exact ⟨r, rfl, spec_c7 regDead wNone ["A"] false r h hp⟩

theorem spec_c10_witness :
    ∃ r, run_tasks regDead wNone ["A"] false = Except.ok r ∧
      r.ended = true ∧ Event.deadlockWarning ∈ r.output ∧
      r.output = [Event.deadlockWarning, Event.summary true] := by
  cases h : run_tasks regDead wNone ["A"] false with
  | error e =>
    have hok : isOkRun (run_tasks regDead wNone ["A"] false) = true := by
      decide
    rw [h] at hok
    simp [isOkRun] at hok
  | ok r =>
    have hmain := spec_c10 regDead wNone ["A"] false r h
    have hA : r.st "A" = TState.pending := by
      have h2 : okSt (run_tasks regDead wNone ["A"] false) "A" =
          TState.pending := by decide
      rw [h] at h2
      exact h2
    have hcl : closure regDead ["A"] = ["A"] := by decide
    have hterm : allTerminalB (closure regDead ["A"]) r.st = false := by
      rw [hcl]
      simp [allTerminalB, hA, terminalSt]
    have hdw : Event.deadlockWarning ∈ r.output := by
      rcases hmain.2 with h1 | h1
      · rw [hterm] at h1
        exact absurd h1 (by simp)
      · exact h1
    have ho : r.output = [Event.deadlockWarning, Event.summary true] := by
      have h2 : okOut (run_tasks regDead wNone ["A"] false) =
          [Event.deadlockWarning, Event.summary true] := by decide
      rw [h] at h2
      exact h2
    exact ⟨r, rfl, hmain.1, hdw, ho⟩

theorem spec_c9_counterexample :
    okSt (run_tasks regDead wNone ["A"] true) "A" = TState.pending ∧
    Event.submitted "A" ∉ okOut (run_tasks regDead wNone ["A"] true) ∧
    depsOf regDead "A" = [] ∧ "A" ∈ closure regDead ["A"] := by
  decide

/-- Up-to-date single task used to show forcing re-executes it. -/
def regForceA : List Task :=
  [⟨"A", [], [], ["a.txt"], ExecBody.noBody⟩]

theorem spec_c9_witness :
    ∃ r, run_tasks regForceA wUpToDate ["A"] true = Except.ok r ∧
      Event.submitted "A" ∈ r.output ∧
      (r.st "A" = TState.done ∨ r.st "A" = TState.failed) ∧
      r.st "A" ≠ TState.skipped ∧
      (⟨"A", [], [], ["a.txt"], ExecBody.noBody⟩ : Task).should_run wUpToDate
        = false := by
  cases h : run_tasks regForceA wUpToDate ["A"] true with
  | error e =>
    have hok : isOkRun (run_tasks regForceA wUpToDate ["A"] true) = true := by
      decide
    rw [h] at hok
    simp [isOkRun] at hok
  | ok r =>
    have hmain := spec_c9 regForceA wUpToDate ["A"] r h
    have h3 := hmain.2.2 "A" ⟨"A", [], [], ["a.txt"], ExecBody.noBody⟩
      (by decide) (by decide) (fun d hd => absurd hd (List.not_mem_nil d))
      (by decide)
    exact ⟨r, rfl, h3.1, h3.2, hmain.1 "A", by decide⟩

/-- Claim C4: the five cases of the staleness decision `should_run()`, read
in order - no outputs declared; a declared output missing; a declared input
missing; outputs all present with no inputs declared; and the strict
newest-input versus oldest-output comparison otherwise. -/
theorem spec_c4 (t : Task) (w : World) :
    (t.output_files = [] → t.should_run w = true) ∧
    ((∃ p ∈ t.output_files, w.mtime p = Option.none) →
      t.should_run w = true) ∧
    ((∃ p ∈ t.input_files, w.mtime p = Option.none) →
      t.should_run w = true) ∧
    (t.output_files ≠ [] → (∀ p ∈ t.output_files, (w.mtime p).isSome = true) →
      t.input_files = [] → t.should_run w = false) ∧
    (t.output_files ≠ [] → (∀ p ∈ t.output_files, (w.mtime p).isSome = true) →
      t.input_files ≠ [] → (∀ p ∈ t.input_files, (w.mtime p).isSome = true) →
      (t.should_run w = true ↔
        newestMTime w t.input_files > oldestMTime w t.output_files)) := by
  refine ⟨?_, ?_, ?_, ?_, ?_⟩
  · intro h
    unfold Task.should_run
    rw [if_pos (by rw [h]; rfl)]
  · intro h
    obtain ⟨p, hp, hmp⟩ := h
    unfold Task.should_run
    by_cases h1 : t.output_files.isEmpty = true
    · rw [if_pos h1]
    · rw [if_neg h1]
      rw [if_pos (List.any_eq_true.mpr ⟨p, hp, by rw [hmp]; rfl⟩)]
  · intro h
    obtain ⟨p, hp, hmp⟩ := h
    unfold Task.should_run
    by_cases h1 : t.output_files.isEmpty = true
    · rw [if_pos h1]
    · rw [if_neg h1]
      by_cases h2 : (t.output_files.any fun q => (w.mtime q).isNone) = true
      · rw [if_pos h2]
      · rw [if_neg h2]
        rw [if_pos (List.any_eq_true.mpr ⟨p, hp, by rw [hmp]; rfl⟩)]
  · intro ho hall hin
    unfold Task.should_run
    rw [if_neg (by simpa using ho)]
    rw [if_neg ?hno]
    case hno =>
      intro ha
      obtain ⟨p, hp, hnone⟩ := List.any_eq_true.mp ha
      have h2 := hall p hp
      cases hmt : w.mtime p
      · rw [hmt] at h2; exact absurd h2 (by simp)
      · rw [hmt] at hnone; exact absurd hnone (by simp)
    rw [if_neg (by rw [hin]; simp)]
    rw [if_pos (by rw [hin]; rfl)]
  · intro ho hallo hi halli
    unfold Task.should_run
    rw [if_neg (by simpa using ho)]
    rw [if_neg ?hno2]
    case hno2 =>
      intro ha
      obtain ⟨p, hp, hnone⟩ := List.any_eq_true.mp ha
      have h2 := hallo p hp
      cases hmt : w.mtime p
      · rw [hmt] at h2; exact absurd h2 (by simp)
      · rw [hmt] at hnone; exact absurd hnone (by simp)
    rw [if_neg ?hni]
    case hni =>
      intro ha
      obtain ⟨p, hp, hnone⟩ := List.any_eq_true.mp ha
      have h2 := halli p hp
      cases hmt : w.mtime p
      · rw [hmt] at h2; exact absurd h2 (by simp)
      · rw [hmt] at hnone; exact absurd hnone (by simp)
    rw [if_neg (by simpa using hi)]
    simp [decide_eq_true_eq]

/-- Input newer than output. -/
def wInNewer : World :=
  ⟨fun p => if p = "in.txt" then Option.some 9 else
    if p = "out.txt" then Option.some 3 else Option.none,
   fun _ => 0, fun _ => Option.none⟩

/-- Task with one input and one output, both present. -/
def tskInOut : Task := ⟨"t", [], ["in.txt"], ["out.txt"], ExecBody.noBody⟩

theorem spec_c4_witness :
    (tskInOut.should_run wInNewer = true ↔
      newestMTime wInNewer tskInOut.input_files >
        oldestMTime wInNewer tskInOut.output_files) ∧
    tskInOut.should_run wInNewer = true ∧
    (⟨"t", [], [], ["out.txt"], ExecBody.noBody⟩ : Task).should_run wInNewer
      = false := by
  refine ⟨?_, by decide, ?_⟩
  · exact (spec_c4 tskInOut wInNewer).2.2.2.2 (by decide) (by decide)
      (by decide) (by decide)
  · exact (spec_c4 ⟨"t", [], [], ["out.txt"], ExecBody.noBody⟩ wInNewer).2.2.2.1
      (by decide) (by decide) rfl

/-- Claim C6: `execute()` runs exactly the configured body - it fails iff
the body fails, with the documented error kinds and payloads. -/
theorem spec_c6 (t : Task) (w : World) :
    (t.body = ExecBody.noBody → t.execute w = Except.ok ()) ∧
    (∀ c, t.body = ExecBody.shell c →
      (w.runShell c = 0 → t.execute w = Except.ok ()) ∧
      (w.runShell c ≠ 0 → t.execute w =
        Except.error (ExecError.shellCommandFailed c (w.runShell c)))) ∧
    (∀ f, t.body = ExecBody.func f →
      (w.callFun f = Option.none → t.execute w = Except.ok ()) ∧
      (∀ m, w.callFun f = Option.some m → t.execute w =
        Except.error (ExecError.functionFailed f m))) ∧
    ((∃ er, t.execute w = Except.error er) ↔
      ((∃ c, t.body = ExecBody.shell c ∧ w.runShell c ≠ 0) ∨
        (∃ f m, t.body = ExecBody.func f ∧ w.callFun f = Option.some m))) := by
  refine ⟨?_, ?_, ?_, ?_⟩
  · intro h
    unfold Task.execute
    simp only [h]
  · intro c h
    constructor
    · intro h0
      unfold Task.execute
      simp only [h]
      rw [if_pos h0]
    · intro h0
      unfold Task.execute
      simp only [h]
      rw [if_neg h0]
  · intro f h
    constructor
    · intro h0
      unfold Task.execute
      simp only [h, h0]
    · intro m h0
      unfold Task.execute
      simp only [h, h0]
  · constructor
    · rintro ⟨er, her⟩
      cases hb : t.body with
      | noBody =>
        have hok : t.execute w = Except.ok () := by
          unfold Task.execute
          simp only [hb]
        rw [hok] at her
        exact absurd her (by simp)
      | shell c =>
        by_cases h0 : w.runShell c = 0
        · have hok : t.execute w = Except.ok () := by
            unfold Task.execute
            simp only [hb]
            rw [if_pos h0]
          rw [hok] at her
          exact absurd her (by simp)
        · exact Or.inl ⟨c, rfl, h0⟩
      | func f =>
        cases hc : w.callFun f with
        | none =>
          have hok : t.execute w = Except.ok () := by
            unfold Task.execute
            simp only [hb, hc]
          rw [hok] at her
          exact absurd her (by simp)
        | some m => exact Or.inr ⟨f, m, rfl, hc⟩
    · rintro (⟨c, hb, h0⟩ | ⟨f, m, hb, hc⟩)
      · refine ⟨ExecError.shellCommandFailed c (w.runShell c), ?_⟩
        unfold Task.execute
        simp only [hb]
        rw [if_neg h0]
      · refine ⟨ExecError.functionFailed f m, ?_⟩
        unfold Task.execute
        simp only [hb, hc]

/-- World whose shell always exits with code 2 and whose callable `boomf`
raises with message `oops`. -/
def wFailing : World :=
  ⟨fun _ => Option.none, fun _ => 2,
   fun f => if f = "boomf" then Option.some "oops" else Option.none⟩

theorem spec_c6_witness :
    (⟨"t", [], [], [], ExecBody.shell "cmd"⟩ : Task).execute wFailing =
      Except.error (ExecError.shellCommandFailed "cmd" 2) ∧
    (⟨"t", [], [], [], ExecBody.func "boomf"⟩ : Task).execute wFailing =
      Except.error (ExecError.functionFailed "boomf" "oops") ∧
    (⟨"t", [], [], [], ExecBody.noBody⟩ : Task).execute wFailing =
      Except.ok () := by
  refine ⟨?_, ?_, ?_⟩
  · exact ((spec_c6 ⟨"t", [], [], [], ExecBody.shell "cmd"⟩ wFailing).2.1
      "cmd" rfl).2 (by decide)
  · exact ((spec_c6 ⟨"t", [], [], [], ExecBody.func "boomf"⟩ wFailing).2.2.1
      "boomf" rfl).2 "oops" (by decide)
  · exact (spec_c6 ⟨"t", [], [], [], ExecBody.noBody⟩ wFailing).1 rfl

/-- Claim C8: `run_tasks` validates its targets before anything else - the
empty target list fails with `NoTargets`, and an unregistered target makes
the run fail with `TargetNotFound` naming an offending target; in both cases
no run result is produced. -/
theorem spec_c8 (reg : List Task) (w : World) (targets : List String)
    (force : Bool) :
    (run_tasks reg w [] force = Except.error RunError.noTargets) ∧
    (∀ z ∈ targets, registered reg z = false →
      ∃ m ∈ targets, registered reg m = false ∧
        run_tasks reg w targets force =
          Except.error (RunError.targetNotFound m)) := by
  constructor
  · rfl
  · intro z hz hreg
    have hsome : (targets.find? (fun n => !registered reg n)).isSome = true := by
      rw [List.find?_isSome]
      exact ⟨z, hz, by rw [hreg]; rfl⟩
    obtain ⟨m, hfind⟩ := Option.isSome_iff_exists.mp hsome
    have hmem := List.mem_of_find?_eq_some hfind
    have hmreg : registered reg m = false := by
      have := List.find?_some hfind
      simpa using this
    refine ⟨m, hmem, hmreg, ?_⟩
    unfold run_tasks
    rw [if_neg (by simp; exact List.ne_nil_of_mem hz)]
    rw [hfind]

theorem spec_c8_witness :
    ∃ m ∈ ["Z"], registered regAB m = false ∧
      run_tasks regAB wNone ["Z"] false =
        Except.error (RunError.targetNotFound m) :=
  (spec_c8 regAB wNone ["Z"] false).2 "Z" (by simp) (by decide)

/-- Modelled from the spec: the errors `validate()` can raise (spec 4.2) - an
unknown dependency carries the depending task and the missing name, a cycle
carries the exact path of names in traversal order; `fuelOut` is the
embedding artefact for exhausted recursion depth and is proved unreachable. -/
inductive ValidationError where
  | unknownDependency (task missing : String) : ValidationError
  | cyclicDependency (cyclePath : List String) : ValidationError
  | fuelOut : ValidationError
deriving DecidableEq, Repr

/-- The reported cycle: the suffix of the active path from the first
occurrence of the revisited node, closed by the node itself (spec 4.2). -/
def cycleFrom (path : List String) (v : String) : List String :=
  (path.dropWhile (fun x => !decide (x = v))) ++ [v]

/-- Modelled from the spec: the traversal of the dependency list of the task
named `parent`, checking each entry is registered before visiting it with the
supplied visitor (the visitor carries the active path). -/
def dfsFold (reg : List Task)
    (visit : String → List String → Except ValidationError (List String))
    (parent : String) : List String → List String →
      Except ValidationError (List String)
  | [], doneL => Except.ok doneL
  | d :: ds, doneL =>
    if registered reg d then
      match visit d doneL with
      | Except.error e => Except.error e
      | Except.ok d2 => dfsFold reg visit parent ds d2
    else Except.error (ValidationError.unknownDependency parent d)

/-- Modelled from the spec: the depth-first visit of one node in
`validate()` - three-colour marking with the colours represented as the
`doneL` list (finished) and the active `path` (in progress, in stack
order). -/
def dfsVisit (reg : List Task) : Nat → String → List String → List String →
    Except ValidationError (List String)
  | 0, _, _, _ => Except.error ValidationError.fuelOut
  | Nat.succ fuel, n, path, doneL =>
    if n ∈ doneL then Except.ok doneL
    else if n ∈ path then
      Except.error (ValidationError.cyclicDependency (cycleFrom path n))
    else
      match getTask? reg n with
      | Option.none => Except.ok doneL
      | Option.some t =>
        match dfsFold reg (fun d dl => dfsVisit reg fuel d (path ++ [n]) dl)
            n t.depends doneL with
        | Except.error e => Except.error e
        | Except.ok d2 => Except.ok (d2 ++ [n])

/-- Modelled from the spec: the top-level traversal over the registered tasks
in registration order. -/
def validateAll (reg : List Task) : List Task → List String →
    Except ValidationError (List String)
  | [], doneL => Except.ok doneL
  | t :: ts, doneL =>
    match dfsVisit reg (reg.length + 1) t.name [] doneL with
    | Except.error e => Except.error e
    | Except.ok d2 => validateAll reg ts d2

/-- Modelled from the spec: `validate()` (called `validate_cycles` in the
tests) - fails with `UnknownDependency` or `CyclicDependency`, returns unit
on an acyclic fully-registered graph. -/
def validate_cycles (reg : List Task) : Except ValidationError Unit :=
  match validateAll reg reg [] with
  | Except.error e => Except.error e
  | Except.ok _ => Except.ok ()

/-- Consecutive elements of the list are dependency edges. -/
def chainB (reg : List Task) : List String → Bool
  | [] => true
  | [_] => true
  | a :: b :: rest => (decide (b ∈ depsOf reg a)) && chainB reg (b :: rest)

/-- A genuine dependency cycle: at least two names, the first equal to the
last, every consecutive pair a `depends` edge. -/
def CyclePath (reg : List Task) (p : List String) : Prop :=
  2 ≤ p.length ∧ p.head? = p.getLast? ∧ chainB reg p = true

/-- The dependency graph has no cycle. -/
def Acyclic (reg : List Task) : Prop := ¬ ∃ p, CyclePath reg p

/-- Every `depends` entry of every registered task is registered. -/
def AllKnown (reg : List Task) : Prop :=
  ∀ t ∈ reg, ∀ d ∈ t.depends, registered reg d = true

/-- Invariant of the finished-node list of the traversal: no duplicates,
every node's dependencies appear before it (a topological order), and every
finished node is registered with registered dependencies. -/
def DoneInv (reg : List Task) (doneL : List String) : Prop :=
  doneL.Nodup ∧
  (∀ l1 m l2, doneL = l1 ++ m :: l2 → ∀ t, getTask? reg m = Option.some t →
    ∀ d ∈ t.depends, d ∈ l1) ∧
  (∀ m ∈ doneL, registered reg m = true ∧
    ∀ t, getTask? reg m = Option.some t →
      ∀ d ∈ t.depends, registered reg d = true)

/-- Soundness of a validation error: an unknown-dependency error names a real
task and a really missing dependency, a cycle error carries a genuine cycle,
and fuel exhaustion never escapes. -/
def ErrSound (reg : List Task) : ValidationError → Prop
  | ValidationError.unknownDependency tk m =>
      ∃ t, getTask? reg tk = Option.some t ∧ m ∈ t.depends ∧
        registered reg m = false
  | ValidationError.cyclicDependency p => CyclePath reg p
  | ValidationError.fuelOut => False

theorem chainB_tail (reg : List Task) :
    ∀ (a : String) (l : List String), chainB reg (a :: l) = true →
      chainB reg l = true
  | _, [], _ => rfl
  | a, b :: t, h => by
    simp only [chainB, Bool.and_eq_true] at h
    exact h.2

theorem chainB_suffix (reg : List Task) :
    ∀ (l1 l2 : List String), chainB reg (l1 ++ l2) = true →
      chainB reg l2 = true
  | [], _, h => h
  | a :: l1, l2, h => chainB_suffix reg l1 l2 (chainB_tail reg a (l1 ++ l2) h)

theorem chainB_extend (reg : List Task) :
    ∀ (p : List String) (a b : String), chainB reg p = true →
      p.getLast? = Option.some a → b ∈ depsOf reg a →
      chainB reg (p ++ [b]) = true
  | [], a, b, _, hl, _ => by simp at hl
  | [x], a, b, _, hl, hb => by
    have hx : x = a := by simpa using hl
    subst hx
    simp [chainB, hb]
  | x :: y :: rest, a, b, h, hl, hb => by
    have h1 : chainB reg (y :: rest) = true := chainB_tail reg x _ h
    have hedge : decide (y ∈ depsOf reg x) = true := by
      simp only [chainB, Bool.and_eq_true] at h
      exact h.1
    have hl2 : (y :: rest).getLast? = Option.some a := hl
    have ih := chainB_extend reg (y :: rest) a b h1 hl2 hb
    show chainB reg (x :: ((y :: rest) ++ [b])) = true
    simp only [List.cons_append, chainB, Bool.and_eq_true]
    simp only [List.cons_append] at ih
    exact ⟨hedge, ih⟩

theorem dropWhile_mem_head (v : String) :
    ∀ path : List String, v ∈ path →
      ∃ rest, path.dropWhile (fun x => !decide (x = v)) = v :: rest
  | [], h => absurd h (by simp)
  | a :: l, h => by
    by_cases ha : a = v
    · subst ha
      refine ⟨l, ?_⟩
      rw [List.dropWhile_cons]
      simp
    · have hv : v ∈ l := by
        rcases List.mem_cons.mp h with h1 | h1
        · exact absurd h1.symm ha
        · exact h1
      obtain ⟨rest, hr⟩ := dropWhile_mem_head v l hv
      refine ⟨rest, ?_⟩
      rw [List.dropWhile_cons]
      simp only [ha]
      simpa using hr

/-- The reported path of a detected cycle is a genuine dependency cycle. -/
theorem cycleFrom_cycle (reg : List Task) (path : List String) (n : String)
    (hchain : chainB reg (path ++ [n]) = true) (hmem : n ∈ path) :
    CyclePath reg (cycleFrom path n) := by
  obtain ⟨rest, hr⟩ := dropWhile_mem_head n path hmem
  unfold cycleFrom
  rw [hr]
  refine ⟨by simp, ?_, ?_⟩
  · rw [List.getLast?_concat]
    rfl
  · have hsuffix : path.takeWhile (fun x => !decide (x = n)) ++ (n :: rest)
        = path := by
      rw [← hr]
      exact List.takeWhile_append_dropWhile _ _
    have hsplit : path ++ [n] =
        path.takeWhile (fun x => !decide (x = n)) ++ ((n :: rest) ++ [n]) := by
      rw [← List.append_assoc, hsuffix]
    rw [hsplit] at hchain
    exact chainB_suffix reg _ _ hchain

theorem snoc_split {α : Type} :
    ∀ (xs : List α) (y : α) (l1 : List α) (m : α) (l2 : List α),
      xs ++ [y] = l1 ++ m :: l2 →
      (∃ l2a, xs = l1 ++ m :: l2a) ∨ (l1 = xs ∧ m = y ∧ l2 = [])
  | [], y, l1, m, l2, h => by
    cases l1 with
    | nil =>
      have h2 : y = m ∧ ([] : List α) = l2 := by simpa using h
      exact Or.inr ⟨rfl, h2.1.symm, h2.2.symm⟩
    | cons a l1a =>
      simp at h
  | x :: xs, y, l1, m, l2, h => by
    cases l1 with
    | nil =>
      have h2 : x = m ∧ xs ++ [y] = l2 := by simpa using h
      exact Or.inl ⟨xs, by rw [List.nil_append, h2.1]⟩
    | cons a l1a =>
      have h2 : x = a ∧ xs ++ [y] = l1a ++ m :: l2 := by simpa using h
      rcases snoc_split xs y l1a m l2 h2.2 with ⟨l2a, hx⟩ | ⟨h1, h3, h4⟩
      · refine Or.inl ⟨l2a, ?_⟩
        rw [List.cons_append, ← hx, h2.1]
      · refine Or.inr ⟨?_, h3, h4⟩
        rw [h2.1, h1]

/-- Specification of `dfsVisit` at a given fuel: errors are sound, and a
successful visit extends the finished list with the visited node while
keeping its invariant and staying disjoint from the active path. -/
def VisitSpec (reg : List Task) (fuel : Nat) : Prop :=
  ∀ (n : String) (path doneL : List String),
    reg.length + 1 ≤ fuel + path.length →
    registered reg n = true →
    path.Nodup → (∀ x ∈ path, registered reg x = true) →
    DoneInv reg doneL → (∀ x ∈ path, x ∉ doneL) →
    chainB reg (path ++ [n]) = true →
    (∀ e, dfsVisit reg fuel n path doneL = Except.error e →
      ErrSound reg e) ∧
    (∀ d2, dfsVisit reg fuel n path doneL = Except.ok d2 →
      DoneInv reg d2 ∧ (∀ x ∈ doneL, x ∈ d2) ∧ n ∈ d2 ∧
      (∀ x ∈ path, x ∉ d2))

/-- Specification of `dfsList` at a given fuel, mirroring `VisitSpec` for a
dependency list of the task named `parent` at the top of the path. -/
def ListSpec (reg : List Task) (fuel : Nat) : Prop :=
  ∀ (parent : String) (ds path doneL : List String) (tp : Task),
    reg.length + 1 ≤ fuel + path.length →
    path.Nodup → (∀ x ∈ path, registered reg x = true) →
    DoneInv reg doneL → (∀ x ∈ path, x ∉ doneL) →
    getTask? reg parent = Option.some tp → (∀ d ∈ ds, d ∈ tp.depends) →
    path.getLast? = Option.some parent →
    chainB reg path = true →
    (∀ e, dfsFold reg (fun d dl => dfsVisit reg fuel d path dl) parent ds
        doneL = Except.error e → ErrSound reg e) ∧
    (∀ d2, dfsFold reg (fun d dl => dfsVisit reg fuel d path dl) parent ds
        doneL = Except.ok d2 →
      DoneInv reg d2 ∧ (∀ x ∈ doneL, x ∈ d2) ∧ (∀ d ∈ ds, d ∈ d2) ∧
      (∀ x ∈ path, x ∉ d2) ∧ (∀ d ∈ ds, registered reg d = true))

theorem visitSpec_zero (reg : List Task) : VisitSpec reg 0 := by
  intro n path doneL hfuel hregn hnd hpreg _ _ _
  have hlen := length_le_of_nodup_registered reg path hnd hpreg
  exact absurd hfuel (by omega)

theorem listSpec_step (reg : List Task) (fuel : Nat)
    (hv : VisitSpec reg fuel) : ListSpec reg fuel := by
  intro parent ds
  induction ds with
  | nil =>
    intro path doneL tp hfuel hnd hpreg hdone hdisj hgetp hds hlast hchain
    constructor
    · intro e he
      rw [dfsFold] at he
      exact absurd he (by simp)
    · intro d2 hd2
      rw [dfsFold] at hd2
      have hde : doneL = d2 := Except.ok.inj hd2
      subst hde
      exact ⟨hdone, fun x hx => hx, fun d hd => absurd hd (by simp), hdisj,
        fun d hd => absurd hd (by simp)⟩
  | cons d ds2 ih =>
    intro path doneL tp hfuel hnd hpreg hdone hdisj hgetp hds hlast hchain
    by_cases hrd : registered reg d
    · have hdp : d ∈ depsOf reg parent := by
        have : depsOf reg parent = tp.depends := by simp [depsOf, hgetp]
        rw [this]
        exact hds d (by simp)
      have hchain2 : chainB reg (path ++ [d]) = true :=
        chainB_extend reg path parent d hchain hlast hdp
      have hvd := hv d path doneL hfuel hrd hnd hpreg hdone hdisj hchain2
      cases hres : dfsVisit reg fuel d path doneL with
      | error e =>
        have heq : dfsFold reg (fun d dl => dfsVisit reg fuel d path dl)
            parent (d :: ds2) doneL = Except.error e := by
          rw [dfsFold]
          rw [if_pos hrd]
          simp only [hres]
        constructor
        · intro e2 he2
          rw [heq] at he2
          have h3 := Except.error.inj he2
          rw [← h3]
          exact hvd.1 e hres
        · intro d2 hd2
          rw [heq] at hd2
          exact absurd hd2 (by simp)
      | ok dn =>
        obtain ⟨hdiN, hsubN, hdN, hdisjN⟩ := hvd.2 dn hres
        have heq : dfsFold reg (fun d dl => dfsVisit reg fuel d path dl)
            parent (d :: ds2) doneL =
            dfsFold reg (fun d dl => dfsVisit reg fuel d path dl) parent
              ds2 dn := by
          rw [dfsFold]
          rw [if_pos hrd]
          simp only [hres]
        have ihr := ih path dn tp hfuel hnd hpreg hdiN hdisjN hgetp
          (fun x hx => hds x (List.mem_cons_of_mem _ hx)) hlast hchain
        constructor
        · intro e he
          rw [heq] at he
          exact ihr.1 e he
        · intro d2 hd2
          rw [heq] at hd2
          obtain ⟨q1, q2, q3, q4, q5⟩ := ihr.2 d2 hd2
          refine ⟨q1, fun x hx => q2 x (hsubN x hx), ?_, q4, ?_⟩
          · intro d3 hd3
            rcases List.mem_cons.mp hd3 with h1 | h1
            · subst h1
              exact q2 d3 hdN
            · exact q3 d3 h1
          · intro d3 hd3
            rcases List.mem_cons.mp hd3 with h1 | h1
            · subst h1
              exact hrd
            · exact q5 d3 h1
    · have heq : dfsFold reg (fun d dl => dfsVisit reg fuel d path dl)
          parent (d :: ds2) doneL =
          Except.error (ValidationError.unknownDependency parent d) := by
        rw [dfsFold]
        rw [if_neg hrd]
      constructor
      · intro e he
        rw [heq] at he
        have h3 := Except.error.inj he
        rw [← h3]
        exact ⟨tp, hgetp, hds d (by simp), by simpa using hrd⟩
      · intro d2 hd2
        rw [heq] at hd2
        exact absurd hd2 (by simp)

theorem visitSpec_succ (reg : List Task) (fuel : Nat)
    (hlist : ListSpec reg fuel) : VisitSpec reg (Nat.succ fuel) := by
  intro n path doneL hfuel hregn hnd hpreg hdone hdisj hchain
  by_cases hdn : n ∈ doneL
  · have heq : dfsVisit reg (Nat.succ fuel) n path doneL =
        Except.ok doneL := by
      rw [dfsVisit]
      rw [if_pos hdn]
    constructor
    · intro e he
      rw [heq] at he
      exact absurd he (by simp)
    · intro d2 hd2
      rw [heq] at hd2
      have hde : doneL = d2 := Except.ok.inj hd2
      subst hde
      exact ⟨hdone, fun x hx => hx, hdn, hdisj⟩
  · by_cases hpn : n ∈ path
    · have heq : dfsVisit reg (Nat.succ fuel) n path doneL =
          Except.error (ValidationError.cyclicDependency (cycleFrom path n))
          := by
        rw [dfsVisit]
        rw [if_neg hdn, if_pos hpn]
      constructor
      · intro e he
        rw [heq] at he
        have hee := Except.error.inj he
        rw [← hee]
        exact cycleFrom_cycle reg path n hchain hpn
      · intro d2 hd2
        rw [heq] at hd2
        exact absurd hd2 (by simp)
    · obtain ⟨t, hget⟩ := getTask?_some_of_registered reg n hregn
      have hnd2 : (path ++ [n]).Nodup := by
        rw [List.nodup_append]
        refine ⟨hnd, by simp, ?_⟩
        intro x hx hxn
        have hx2 : x = n := by simpa using hxn
        subst hx2
        exact hpn hx
      have hpreg2 : ∀ x ∈ path ++ [n], registered reg x = true := by
        intro x hx
        rcases List.mem_append.mp hx with h1 | h1
        · exact hpreg x h1
        · have hx2 : x = n := by simpa using h1
          subst hx2
          exact hregn
      have hdisj2 : ∀ x ∈ path ++ [n], x ∉ doneL := by
        intro x hx
        rcases List.mem_append.mp hx with h1 | h1
        · exact hdisj x h1
        · have hx2 : x = n := by simpa using h1
          subst hx2
          exact hdn
      have hfuel2 : reg.length + 1 ≤ fuel + (path ++ [n]).length := by
        rw [List.length_append]
        simp only [List.length_cons, List.length_nil]
        omega
      have hlast2 : (path ++ [n]).getLast? = Option.some n :=
        List.getLast?_concat path
      have hl := hlist n t.depends (path ++ [n]) doneL t hfuel2 hnd2 hpreg2
        hdone hdisj2 hget (fun d hd => hd) hlast2 hchain
      cases hres : dfsFold reg
          (fun d dl => dfsVisit reg fuel d (path ++ [n]) dl) n t.depends
          doneL with
      | error e =>
        have heq : dfsVisit reg (Nat.succ fuel) n path doneL =
            Except.error e := by
          rw [dfsVisit]
          rw [if_neg hdn, if_neg hpn]
          simp only [hget, hres]
        constructor
        · intro e2 he2
          rw [heq] at he2
          have h3 := Except.error.inj he2
          rw [← h3]
          exact hl.1 e hres
        · intro d2 hd2
          rw [heq] at hd2
          exact absurd hd2 (by simp)
      | ok d2 =>
        obtain ⟨hdi2, hsub2, hds3, hdisj3, hreg3⟩ := hl.2 d2 hres
        have heq : dfsVisit reg (Nat.succ fuel) n path doneL =
            Except.ok (d2 ++ [n]) := by
          rw [dfsVisit]
          rw [if_neg hdn, if_neg hpn]
          simp only [hget, hres]
        have hnind2 : n ∉ d2 := hdisj3 n (by simp)
        constructor
        · intro e he
          rw [heq] at he
          exact absurd he (by simp)
        · intro d3 hd3
          rw [heq] at hd3
          have hde : d2 ++ [n] = d3 := Except.ok.inj hd3
          subst hde
          refine ⟨⟨?_, ?_, ?_⟩, ?_, ?_, ?_⟩
          · rw [List.nodup_append]
            refine ⟨hdi2.1, by simp, ?_⟩
            intro x hx hxn
            have hx2 : x = n := by simpa using hxn
            subst hx2
            exact hnind2 hx
          · intro l1 m l2 hsplit t2 hget2 d hd
            rcases snoc_split d2 n l1 m l2 hsplit with ⟨l2a, hx⟩ | ⟨h1, h2, _⟩
            · exact hdi2.2.1 l1 m l2a hx t2 hget2 d hd
            · subst h1
              rw [h2] at hget2
              rw [hget] at hget2
              have ht2 := Option.some.inj hget2
              rw [← ht2] at hd
              exact hds3 d hd
          · intro m hm
            rcases List.mem_append.mp hm with h1 | h1
            · exact hdi2.2.2 m h1
            · have hm2 : m = n := by simpa using h1
              subst hm2
              refine ⟨hregn, ?_⟩
              intro t2 hget2 d hd
              rw [hget] at hget2
              have ht2 := Option.some.inj hget2
              rw [← ht2] at hd
              exact hreg3 d hd
          · exact fun x hx => List.mem_append.mpr (Or.inl (hsub2 x hx))
          · exact List.mem_append.mpr (Or.inr (by simp))
          · intro x hx hmem
            rcases List.mem_append.mp hmem with h1 | h1
            · exact hdisj3 x (List.mem_append.mpr (Or.inl hx)) h1
            · have hx2 : x = n := by simpa using h1
              subst hx2
              exact hpn hx

theorem visitSpec_all (reg : List Task) : ∀ fuel : Nat, VisitSpec reg fuel
  | 0 => visitSpec_zero reg
  | Nat.succ f =>
    visitSpec_succ reg f (listSpec_step reg f (visitSpec_all reg f))

theorem registered_of_mem (reg : List Task) (t : Task) (ht : t ∈ reg) :
    registered reg t.name = true := by
  unfold registered
  rw [List.any_eq_true]
  exact ⟨t, ht, by simp⟩

theorem doneInv_nil (reg : List Task) : DoneInv reg [] := by
  refine ⟨List.nodup_nil, ?_, ?_⟩
  · intro l1 m l2 h
    exact absurd h (by simp)
  · intro m hm
    simp at hm

theorem validateAll_spec (reg : List Task) :
    ∀ (ts : List Task) (doneL : List String),
      (∀ t ∈ ts, t ∈ reg) → DoneInv reg doneL →
      (∀ e, validateAll reg ts doneL = Except.error e → ErrSound reg e) ∧
      (∀ d2, validateAll reg ts doneL = Except.ok d2 →
        DoneInv reg d2 ∧ (∀ x ∈ doneL, x ∈ d2) ∧ ∀ t ∈ ts, t.name ∈ d2)
  | [], doneL, _, hdone => by
    constructor
    · intro e he
      rw [validateAll] at he
      exact absurd he (by simp)
    · intro d2 hd2
      rw [validateAll] at hd2
      have hde : doneL = d2 := Except.ok.inj hd2
      subst hde
      exact ⟨hdone, fun x hx => hx, fun t ht => absurd ht (by simp)⟩
  | t :: ts, doneL, hts, hdone => by
    have hvs := visitSpec_all reg (reg.length + 1) t.name [] doneL
      (by simp) (registered_of_mem reg t (hts t (by simp)))
      (by simp) (by simp) hdone (by simp) rfl
    cases hres : dfsVisit reg (reg.length + 1) t.name [] doneL with
    | error e =>
      have heq : validateAll reg (t :: ts) doneL = Except.error e := by
        rw [validateAll]
        simp only [hres]
      constructor
      · intro e2 he2
        rw [heq] at he2
        have h3 := Except.error.inj he2
        rw [← h3]
        exact hvs.1 e hres
      · intro d2 hd2
        rw [heq] at hd2
        exact absurd hd2 (by simp)
    | ok dn =>
      obtain ⟨hdiN, hsubN, hmemN, _⟩ := hvs.2 dn hres
      have heq : validateAll reg (t :: ts) doneL = validateAll reg ts dn := by
        rw [validateAll]
        simp only [hres]
      have ihr := validateAll_spec reg ts dn
        (fun t2 ht2 => hts t2 (List.mem_cons_of_mem _ ht2)) hdiN
      constructor
      · intro e he
        rw [heq] at he
        exact ihr.1 e he
      · intro d2 hd2
        rw [heq] at hd2
        obtain ⟨q1, q2, q3⟩ := ihr.2 d2 hd2
        refine ⟨q1, fun x hx => q2 x (hsubN x hx), ?_⟩
        intro t2 ht2
        rcases List.mem_cons.mp ht2 with h1 | h1
        · subst h1
          exact q2 t2.name hmemN
        · exact q3 t2 h1

theorem validate_err_sound (reg : List Task) :
    ∀ e, validate_cycles reg = Except.error e → ErrSound reg e := by
  intro e he
  unfold validate_cycles at he
  cases hres : validateAll reg reg [] with
  | error e2 =>
    simp only [hres] at he
    have h3 := Except.error.inj he
    rw [← h3]
    exact (validateAll_spec reg reg [] (fun t ht => ht)
      (doneInv_nil reg)).1 e2 hres
  | ok d2 =>
    simp only [hres] at he
    exact absurd he (by simp)

theorem validate_ok_final (reg : List Task)
    (h : validate_cycles reg = Except.ok ()) :
    ∃ fin, DoneInv reg fin ∧ ∀ t ∈ reg, t.name ∈ fin := by
  unfold validate_cycles at h
  cases hres : validateAll reg reg [] with
  | error e =>
    simp only [hres] at h
    exact absurd h (by simp)
  | ok d2 =>
    obtain ⟨q1, _, q3⟩ := (validateAll_spec reg reg [] (fun t ht => ht)
      (doneInv_nil reg)).2 d2 hres
    exact ⟨d2, q1, q3⟩

theorem getTask?_of_mem_nodup (reg : List Task)
    (hnd : (reg.map Task.name).Nodup) :
    ∀ t ∈ reg, getTask? reg t.name = Option.some t := by
  induction reg with
  | nil =>
    intro t ht
    simp at ht
  | cons t0 rest ih =>
    intro t ht
    have hnd2 : (rest.map Task.name).Nodup := by
      simp only [List.map_cons, List.nodup_cons] at hnd
      exact hnd.2
    have hhead : t0.name ∉ rest.map Task.name := by
      simp only [List.map_cons, List.nodup_cons] at hnd
      exact hnd.1
    rcases List.mem_cons.mp ht with h1 | h1
    · subst h1
      unfold getTask?
      exact List.find?_cons_of_pos rest (by simp)
    · have hne : (decide (t0.name = t.name)) = false := by
        rw [decide_eq_false_iff_not]
        intro he
        apply hhead
        rw [he]
        exact List.mem_map.mpr ⟨t, h1, rfl⟩
      unfold getTask?
      rw [List.find?_cons_of_neg rest (by simp [hne])]
      have := ih hnd2 t h1
      unfold getTask? at this
      exact this

theorem node_in_fin (reg : List Task) (fin : List String)
    (hallm : ∀ t ∈ reg, t.name ∈ fin) (x y : String)
    (hy : y ∈ depsOf reg x) : x ∈ fin := by
  unfold depsOf at hy
  cases hg : getTask? reg x with
  | none => rw [hg] at hy; simp at hy
  | some tx =>
    rw [hg] at hy
    obtain ⟨htm, htn⟩ := getTask?_mem reg x tx hg
    have := hallm tx htm
    rwa [htn] at this

theorem edge_before (reg : List Task) (fin : List String)
    (hdi : DoneInv reg fin) :
    ∀ x y, y ∈ depsOf reg x → x ∈ fin →
      y ∈ fin ∧ fin.indexOf y < fin.indexOf x := by
  intro x y hy hx
  obtain ⟨l1, l2, hsplit⟩ := List.mem_iff_append.mp hx
  have hgx : ∃ tx, getTask? reg x = Option.some tx ∧ y ∈ tx.depends := by
    unfold depsOf at hy
    cases hg : getTask? reg x with
    | none => rw [hg] at hy; simp at hy
    | some tx => rw [hg] at hy; exact ⟨tx, rfl, hy⟩
  obtain ⟨tx, hgx2, hytx⟩ := hgx
  have hyl1 : y ∈ l1 := hdi.2.1 l1 x l2 hsplit tx hgx2 y hytx
  have hxnl1 : x ∉ l1 := by
    have hnd := hdi.1
    rw [hsplit, List.nodup_append] at hnd
    intro hc
    exact hnd.2.2 hc (List.mem_cons_self x l2)
  constructor
  · rw [hsplit]
    exact List.mem_append.mpr (Or.inl hyl1)
  · rw [hsplit]
    rw [List.indexOf_append_of_mem hyl1]
    rw [List.indexOf_append_of_not_mem hxnl1]
    rw [List.indexOf_cons_self]
    have := List.indexOf_lt_length.mpr hyl1
    omega

theorem chain_descent (reg : List Task) (fin : List String)
    (hdi : DoneInv reg fin) (hallm : ∀ t ∈ reg, t.name ∈ fin) :
    ∀ (p : List String) (a b : String), chainB reg p = true →
      p.head? = Option.some a → p.getLast? = Option.some b →
      2 ≤ p.length → fin.indexOf b < fin.indexOf a
  | [], _, _, _, hh, _, _ => by simp at hh
  | [x], _, _, _, _, _, hlen => by simp at hlen
  | x :: y :: rest, a, b, hch, hh, hl, _ => by
    have hax : x = a := by simpa using hh
    subst hax
    have hedge : y ∈ depsOf reg x := by
      simp only [chainB, Bool.and_eq_true] at hch
      simpa using hch.1
    have hxfin : x ∈ fin := node_in_fin reg fin hallm x y hedge
    have hyx := edge_before reg fin hdi x y hedge hxfin
    cases rest with
    | nil =>
      have hby : y = b := by simpa using hl
      subst hby
      exact hyx.2
    | cons z rest2 =>
      have hch2 : chainB reg (y :: z :: rest2) = true :=
        chainB_tail reg x _ hch
      have ih := chain_descent reg fin hdi hallm (y :: z :: rest2) y b hch2
        rfl hl (by simp)
      omega

theorem acyclic_of_topo (reg : List Task) (fin : List String)
    (hdi : DoneInv reg fin) (hallm : ∀ t ∈ reg, t.name ∈ fin) :
    Acyclic reg := by
  rintro ⟨p, hlen, hhl, hch⟩
  cases p with
  | nil => simp at hlen
  | cons a p2 =>
    have hl : (a :: p2).getLast? = Option.some a := by
      rw [← hhl]
      rfl
    have := chain_descent reg fin hdi hallm (a :: p2) a a hch rfl hl hlen
    omega

theorem allKnown_of_ok (reg : List Task)
    (hnd : (reg.map Task.name).Nodup)
    (h : validate_cycles reg = Except.ok ()) : AllKnown reg := by
  obtain ⟨fin, hdi, hallm⟩ := validate_ok_final reg h
  intro t ht d hd
  have hmem : t.name ∈ fin := hallm t ht
  have hq := hdi.2.2 t.name hmem
  exact hq.2 t (getTask?_of_mem_nodup reg hnd t ht) d hd

theorem acyclic_of_ok (reg : List Task)
    (h : validate_cycles reg = Except.ok ()) : Acyclic reg := by
  obtain ⟨fin, hdi, hallm⟩ := validate_ok_final reg h
  exact acyclic_of_topo reg fin hdi hallm

theorem ok_of_sound (reg : List Task) (hak : AllKnown reg)
    (hac : Acyclic reg) : validate_cycles reg = Except.ok () := by
  cases h : validate_cycles reg with
  | error e =>
    have hs := validate_err_sound reg e h
    cases e with
    | unknownDependency tk m =>
      obtain ⟨t, hg, hm, hrf⟩ := hs
      obtain ⟨htm, htn⟩ := getTask?_mem reg tk t hg
      have := hak t htm m hm
      rw [this] at hrf
      exact absurd hrf (by simp)
    | cyclicDependency p =>
      exact absurd ⟨p, hs⟩ hac
    | fuelOut => exact hs.elim
  | ok u =>
    cases u
    rfl

/-- C5: `validate()` succeeds exactly on an acyclic, fully-registered
dependency graph (registry names assumed unique, as the manager keys tasks
by name); an unknown-dependency failure names a real task and a really
unregistered `depends` entry of it, and a cycle failure reports a genuine
cycle path in traversal order - first and last name equal, every
consecutive pair a `depends` edge - never an arbitrary subset. -/
theorem spec_c5 (reg : List Task) (hnd : (reg.map Task.name).Nodup) :
    (validate_cycles reg = Except.ok () ↔ AllKnown reg ∧ Acyclic reg) ∧
    (∀ tk m, validate_cycles reg =
        Except.error (ValidationError.unknownDependency tk m) →
      ∃ t, getTask? reg tk = Option.some t ∧ m ∈ t.depends ∧
        registered reg m = false) ∧
    (∀ p, validate_cycles reg =
        Except.error (ValidationError.cyclicDependency p) →
      CyclePath reg p) := by
  refine ⟨⟨fun h => ⟨allKnown_of_ok reg hnd h, acyclic_of_ok reg h⟩,
    fun h => ok_of_sound reg h.1 h.2⟩, ?_, ?_⟩
  · intro tk m h
    exact validate_err_sound reg _ h
  · intro p h
    exact validate_err_sound reg _ h

def regCycAB : List Task :=
  [⟨"A", ["B"], [], [], ExecBody.noBody⟩, ⟨"B", ["A"], [], [], ExecBody.noBody⟩]

def regCycABC : List Task :=
  [⟨"A", ["B"], [], [], ExecBody.noBody⟩, ⟨"B", ["C"], [], [], ExecBody.noBody⟩,
   ⟨"C", ["A"], [], [], ExecBody.noBody⟩]

def regUnknownDep : List Task :=
  [⟨"A", ["UNKNOWN"], [], [], ExecBody.noBody⟩]

def regDAG : List Task :=
  [⟨"A", [], [], [], ExecBody.noBody⟩, ⟨"B", ["A"], [], [], ExecBody.noBody⟩,
   ⟨"C", ["A", "B"], [], [], ExecBody.noBody⟩]

theorem spec_c5_witness :
    validate_cycles regCycAB = Except.error
      (ValidationError.cyclicDependency ["A", "B", "A"]) ∧
    CyclePath regCycAB ["A", "B", "A"] ∧
    validate_cycles regCycABC = Except.error
      (ValidationError.cyclicDependency ["A", "B", "C", "A"]) ∧
    CyclePath regCycABC ["A", "B", "C", "A"] ∧
    validate_cycles regUnknownDep = Except.error
      (ValidationError.unknownDependency "A" "UNKNOWN") ∧
    validate_cycles regDAG = Except.ok () ∧
    AllKnown regDAG ∧ Acyclic regDAG := by
  have h1 : validate_cycles regCycAB = Except.error
      (ValidationError.cyclicDependency ["A", "B", "A"]) := by rfl
  have h2 : validate_cycles regCycABC = Except.error
      (ValidationError.cyclicDependency ["A", "B", "C", "A"]) := by rfl
  have h3 : validate_cycles regUnknownDep = Except.error
      (ValidationError.unknownDependency "A" "UNKNOWN") := by rfl
  have h4 : validate_cycles regDAG = Except.ok () := by rfl
  have hD := (spec_c5 regDAG (by decide)).1.mp h4
  exact ⟨h1, (spec_c5 regCycAB (by decide)).2.2 _ h1, h2,
    (spec_c5 regCycABC (by decide)).2.2 _ h2, h3, h4, hD.1, hD.2⟩

end Taskcond
